import Mathlib

/-!
# CsvCpp: rows, tables and the delimiter-separated text parser

A shallow embedding of `src/src/CsvParser.cpp` (declarations in
`src/include/CsvParser.h`).

Conventions of the embedding.

* A `std::string` is a `List Char`; a `std::vector<T>` is a `List T`.
* `std::size_t` is the 64-bit unsigned type and `int` the 32-bit signed type of
  the usual LP64 targets.  Unsigned arithmetic that can wrap is written with an
  explicit `% 2 ^ 64`; the conversions between `std::size_t` and `int` that the
  field splitter performs are `toInt` and `toSizeT`.
* An output parameter (`std::string& field`, `CsvRow& row`, `CsvTable& csvTable`)
  is passed in and returned next to the `bool` result.
* An element access outside the bounds of a vector is undefined behaviour in
  C++; the accessors return `none` there.
* A `while (true)` loop is a function that is structurally recursive on a
  number of remaining iterations and returns `none` when that number is used
  up; `convert_terminates` and `readLoop_returns_false` show that the number
  given by the callers is enough for every text shorter than `2 ^ 31`
  characters, the range in which the `int` positions of the splitter are exact.
* `printDebugInfo` only writes to the console and is left out.
-/

namespace Csv

/-- A `std::string`. -/
abbrev Str := List Char

/-- The value `std::string::npos`, which is also the largest `std::size_t`. -/
def npos : Nat := 2 ^ 64 - 1

/-- The `std::size_t` expression `n - 1`, which wraps around for `n = 0`. -/
def sizeSubOne (n : Nat) : Nat := (n + 2 ^ 64 - 1) % 2 ^ 64

/-- The conversion `static_cast<int>(n)` of a `std::size_t` (two's complement, 32 bits). -/
def toInt (n : Nat) : Int :=
  if n % 2 ^ 32 < 2 ^ 31 then ((n % 2 ^ 32 : Nat) : Int) else ((n % 2 ^ 32 : Nat) : Int) - 2 ^ 32

/-- The implicit conversion of an `int` to `std::size_t`. -/
def toSizeT (i : Int) : Nat := (i % 2 ^ 64).toNat

/-! ## CsvRow -/

/-- The class `CsvRow`: the size given to the constructor and the fields. -/
structure CsvRow where
  m_rowSize : Nat
  m_rowData : List Str
deriving DecidableEq

/-- The constructor `CsvRow::CsvRow(rowSize)`: `rowSize` empty fields. -/
def CsvRow.ctor (rowSize : Nat) : CsvRow :=
  ⟨rowSize, List.replicate rowSize []⟩

/-- The method `CsvRow::getField(idx, field)`: the `bool` result and the new value of `field`;
`none` when `m_rowData[idx]` is read outside the vector. -/
def CsvRow.getField (r : CsvRow) (idx : Nat) (field : Str) : Option (Bool × Str) :=
  if idx > sizeSubOne r.m_rowData.length then some (false, field)
  else
    match r.m_rowData[idx]? with
    | some f => some (true, f)
    | none => none

/-- The method `CsvRow::addField(data)`. -/
def CsvRow.addField (r : CsvRow) (data : Str) : Bool × CsvRow :=
  (true, { r with m_rowData := r.m_rowData ++ [data] })

/-- The method `CsvRow::removeField(elementIdx)`; `none` when `erase` is given an iterator
that is not inside the vector. -/
def CsvRow.removeField (r : CsvRow) (elementIdx : Nat) : Option (Bool × CsvRow) :=
  if elementIdx > sizeSubOne r.m_rowData.length then some (false, r)
  else if elementIdx < r.m_rowData.length then
    some (true, { r with m_rowData := r.m_rowData.eraseIdx elementIdx })
  else none

/-- The method `CsvRow::getNumOfFields()`. -/
def CsvRow.getNumOfFields (r : CsvRow) : Nat := r.m_rowData.length

/-- The method `CsvRow::clearAll()`. -/
def CsvRow.clearAll (r : CsvRow) : CsvRow := { r with m_rowData := [] }

/-! ## CsvTable -/

/-- The class `CsvTable`: the number given to the constructor and the rows. -/
structure CsvTable where
  m_numOfRows : Nat
  m_rows : List CsvRow
deriving DecidableEq

/-- The constructor `CsvTable::CsvTable(numOfRows)`: `numOfRows` default rows. -/
def CsvTable.ctor (numOfRows : Nat) : CsvTable :=
  ⟨numOfRows, List.replicate numOfRows (CsvRow.ctor 0)⟩

/-- The method `CsvTable::getRow(idx, row)`: the `bool` result and the new value of `row`;
`none` when `m_rows[idx]` is read outside the vector. -/
def CsvTable.getRow (t : CsvTable) (idx : Nat) (row : CsvRow) : Option (Bool × CsvRow) :=
  if idx > sizeSubOne t.m_rows.length then some (false, row)
  else
    match t.m_rows[idx]? with
    | some r => some (true, r)
    | none => none

/-- The method `CsvTable::addRow(row)`. -/
def CsvTable.addRow (t : CsvTable) (row : CsvRow) : Bool × CsvTable :=
  (true, { t with m_rows := t.m_rows ++ [row] })

/-- The method `CsvTable::removeRow(rowIdx)`; `none` when `erase` is given an iterator that
is not inside the vector. -/
def CsvTable.removeRow (t : CsvTable) (rowIdx : Nat) : Option (Bool × CsvTable) :=
  if rowIdx > sizeSubOne t.m_rows.length then some (false, t)
  else if rowIdx < t.m_rows.length then
    some (true, { t with m_rows := t.m_rows.eraseIdx rowIdx })
  else none

/-- The method `CsvTable::getRowNumbers()`. -/
def CsvTable.getRowNumbers (t : CsvTable) : Nat := t.m_rows.length

/-- The method `CsvTable::clearAll()`. -/
def CsvTable.clearAll (t : CsvTable) : CsvTable := { t with m_rows := [] }

/-- The field values of a table, row by row. -/
def CsvTable.fields (t : CsvTable) : List (List Str) := t.m_rows.map CsvRow.m_rowData

/-! ## std::string primitives -/

/-- The search of `std::string::find`: the first index `i + k` at which `pat` is a prefix of the
`k`-th suffix of `s`, where `s` is the part of the string that starts at index `i`. -/
def findAux (pat : Str) : Str → Nat → Option Nat
  | [], i => if pat = [] then some i else none
  | c :: cs, i => if pat.isPrefixOf (c :: cs) then some i else findAux pat cs (i + 1)

/-- The call `s.find(pat, pos)`: the position of the first occurrence of `pat` in `s` that
starts at `pos` or later, `npos` when there is none. -/
def strFind (s pat : Str) (pos : Nat) : Nat :=
  if pos > s.length then npos else (findAux pat (s.drop pos) pos).getD npos

/-- The copy loop `for (x = a; x < b; x++) field += csvLine[x];` on `int` bounds: the
characters at the positions `a`, …, `b - 1`, none when `b ≤ a`.  Every call on a line shorter
than `2 ^ 31` characters has `0 ≤ a` and `b ≤ csvLine.length`; outside that range the source
reads outside the string. -/
def copyChars (csvLine : Str) (a b : Int) : Str :=
  (csvLine.drop a.toNat).take (b - a).toNat

/-! ## CsvParser -/

/-- The class `CsvParser`. -/
structure CsvParser where
  m_fieldDelimiter : Str
  m_rowDelimiter : Str
  m_fileName : Str
  m_isDebugEnabled : Bool
deriving DecidableEq

/-- The constructor `CsvParser::CsvParser(fieldDelimiter, rowDelimiter)`. -/
def CsvParser.ctor (fieldDelimiter rowDelimiter : Str) : CsvParser :=
  ⟨fieldDelimiter, rowDelimiter, "default.csv".toList, false⟩

/-- The parser `CsvParser()` built with the default arguments of the header: the field
delimiter `;` and the row delimiter `\n`. -/
def defaultParser : CsvParser := CsvParser.ctor [';'] ['\n']

/-- The `while (true)` loop of `CsvParser::convertRowStringToRowFields`, entered with the
values of `lastFieldDelimiterPosition`, `firstTime` and `csvRow`; the first argument bounds the
number of iterations. -/
def convertLoop (p : CsvParser) (csvLine : Str) : Nat → Int → Bool → CsvRow → Option CsvRow
  | 0, _, _, _ => none
  | fuel + 1, lastFieldDelimiterPosition, firstTime, csvRow =>
    let nextFieldDelimiterPosition : Int :=
      if firstTime then
        toInt (strFind csvLine p.m_fieldDelimiter (toSizeT lastFieldDelimiterPosition))
      else
        toInt (strFind csvLine p.m_fieldDelimiter (toSizeT (lastFieldDelimiterPosition + 1)))
    let field : Str :=
      if nextFieldDelimiterPosition = toInt npos then
        copyChars csvLine (lastFieldDelimiterPosition + 1) (toInt csvLine.length)
      else if lastFieldDelimiterPosition = 0 then
        copyChars csvLine lastFieldDelimiterPosition nextFieldDelimiterPosition
      else
        copyChars csvLine (lastFieldDelimiterPosition + 1) nextFieldDelimiterPosition
    let csvRow1 := (csvRow.addField field).2
    if nextFieldDelimiterPosition = toInt npos then some csvRow1
    else convertLoop p csvLine fuel nextFieldDelimiterPosition false csvRow1

/-- The method `CsvParser::convertRowStringToRowFields(csvLine, csvRow)`: the `bool` result
and the new value of `csvRow`.  The loop is given `csvLine.length + 2` iterations. -/
def CsvParser.convertRowStringToRowFields (p : CsvParser) (csvLine : Str) (csvRow : CsvRow) :
    Option (Bool × CsvRow) :=
  (convertLoop p csvLine (csvLine.length + 2) 0 true csvRow).map (fun r => (true, r))

/-! ## Files and streams -/

/-- The file system: a partial map from file names to file contents. -/
abbrev FileSystem := Str → Option Str

/-- The file system after `fileName` has received the content `text`. -/
def FileSystem.write (fs : FileSystem) (fileName text : Str) : FileSystem :=
  fun n => if n = fileName then some text else fs n

/-- The `while (1)` loop of `CsvParser::readCsvFile`, entered with the values of `entireFile`
and `csvTable`; the first argument bounds the number of iterations.  Every path out of the loop
is the `return false` of the empty `csvLine`: the `return true` that follows the loop in the
source cannot be reached. -/
def readLoop (p : CsvParser) : Nat → Str → CsvTable → Option (Bool × CsvTable)
  | 0, _, _ => none
  | fuel + 1, entireFile, csvTable =>
    let found := strFind entireFile p.m_rowDelimiter 0
    let csvLine : Str :=
      if found = npos then entireFile.take entireFile.length else entireFile.take found
    let entireFile1 : Str :=
      if found = npos then entireFile.drop entireFile.length
      else entireFile.drop (found + p.m_rowDelimiter.length)
    if csvLine.isEmpty then some (false, csvTable)
    else
      match p.convertRowStringToRowFields csvLine (CsvRow.ctor 0) with
      | none => none
      | some (true, csvRow) => readLoop p fuel entireFile1 (csvTable.addRow csvRow).2
      | some (false, _) => readLoop p fuel entireFile1 csvTable

/-- The method `CsvParser::readCsvFile(fileName, csvTable)`: the `bool` result and the new
value of `csvTable`.  A file that cannot be opened is a name outside the file system.  The loop
is given one iteration more than the file has characters. -/
def CsvParser.readCsvFile (p : CsvParser) (fs : FileSystem) (fileName : Str)
    (csvTable : CsvTable) : Option (Bool × CsvTable) :=
  match fs fileName with
  | none => some (false, csvTable)
  | some entireFile => readLoop p (entireFile.length + 1) entireFile csvTable

/-- A `std::ofstream`: the text that has reached the file, the fail state of the stream, and
the number of operations performed on it. -/
structure OStream where
  text : Str
  failed : Bool
  ops : Nat
deriving DecidableEq

/-- Opening the stream; `dev k` says that the `k`-th operation on the stream fails. -/
def OStream.opened (dev : Nat → Bool) : OStream := ⟨[], dev 0, 1⟩

/-- The insertion `stream << s`; a stream in the fail state writes nothing. -/
def OStream.put (dev : Nat → Bool) (o : OStream) (s : Str) : OStream :=
  if o.failed then { o with ops := o.ops + 1 }
  else if dev o.ops then { o with failed := true, ops := o.ops + 1 }
  else { o with text := o.text ++ s, ops := o.ops + 1 }

/-- The call `stream.close()`. -/
def OStream.close (dev : Nat → Bool) (o : OStream) : OStream :=
  if dev o.ops then { o with failed := true, ops := o.ops + 1 } else { o with ops := o.ops + 1 }

/-- The method `CsvParser::isOStreamCorrect(ostream)`. -/
def isOStreamCorrect (o : OStream) : Bool :=
  if o.failed then false else true

/-- The loop `for (y = 0; y < row.getNumOfFields(); y++)` of `CsvParser::createCsvFile` with
`k` iterations left, entered with the values of `y`, `field` and `outputFile`.  The `bool` of
the result is `false` when the body has executed `return false`. -/
def writeFields (p : CsvParser) (dev : Nat → Bool) (row : CsvRow) :
    Nat → Nat → Str → OStream → Option (Bool × Str × OStream)
  | 0, _, field, outputFile => some (true, field, outputFile)
  | k + 1, y, field, outputFile =>
    match row.getField y field with
    | none => none
    | some (_, field1) =>
      let out1 := outputFile.put dev field1
      if !isOStreamCorrect out1 then some (false, field1, out1)
      else if y ≠ sizeSubOne row.getNumOfFields then
        let out2 := out1.put dev p.m_fieldDelimiter
        if !isOStreamCorrect out2 then some (false, field1, out2)
        else writeFields p dev row k (y + 1) field1 out2
      else writeFields p dev row k (y + 1) field1 out1

/-- The loop `for (x = 0; x < csvTable.getRowNumbers(); x++)` of `CsvParser::createCsvFile`
with `k` iterations left, entered with the values of `x`, `row`, `field` and `outputFile`.  The
`bool` of the result is `false` when the body has executed `return false`. -/
def writeRows (p : CsvParser) (dev : Nat → Bool) (csvTable : CsvTable) :
    Nat → Nat → CsvRow → Str → OStream → Option (Bool × OStream)
  | 0, _, _, _, outputFile => some (true, outputFile)
  | k + 1, x, row, field, outputFile =>
    match csvTable.getRow x row with
    | none => none
    | some (_, row1) =>
      match writeFields p dev row1 row1.getNumOfFields 0 field outputFile with
      | none => none
      | some (false, _, out1) => some (false, out1)
      | some (true, field1, out1) =>
        let out2 := out1.put dev p.m_rowDelimiter
        if !isOStreamCorrect out2 then some (false, out2)
        else writeRows p dev csvTable k (x + 1) row1 field1 out2

/-- The method `CsvParser::createCsvFile(fileName, csvTable)`: the `bool` result and the file
system it leaves.  When the stream cannot be opened no file is written; otherwise the file
holds the text written up to the `return`. -/
def CsvParser.createCsvFile (p : CsvParser) (dev : Nat → Bool) (fs : FileSystem)
    (fileName : Str) (csvTable : CsvTable) : Option (Bool × FileSystem) :=
  let outputFile := OStream.opened dev
  if !isOStreamCorrect outputFile then some (false, fs)
  else
    match writeRows p dev csvTable csvTable.getRowNumbers 0 (CsvRow.ctor 1) [] outputFile with
    | none => none
    | some (false, out1) => some (false, fs.write fileName out1.text)
    | some (true, out1) =>
      let out2 := out1.close dev
      some (isOStreamCorrect out2, fs.write fileName out2.text)

/-! ## The file format in the words of the specification -/

/-- The text `l₁ rd l₂ rd … lₙ rd`: every line is followed by the row delimiter. -/
def fileOfLines (rd : Str) : List Str → Str
  | [] => []
  | l :: ls => l ++ rd ++ fileOfLines rd ls

/-- The text of a table as the specification words it: the fields of a row are joined by the
field delimiter, with none after the last field, and every row is followed by the row
delimiter. -/
def csvText (fd rd : Str) (rows : List (List Str)) : Str :=
  fileOfLines rd (rows.map (fun fields => fd.intercalate fields))

/-- The sizes of a table fit `std::size_t`, as those of every `std::vector` do. -/
def CsvTable.fitsSizeT (t : CsvTable) : Prop :=
  t.m_rows.length < 2 ^ 64 ∧ ∀ r ∈ t.m_rows, r.m_rowData.length < 2 ^ 64

/-- A device on which no stream operation fails. -/
def noFault : Nat → Bool := fun _ => false

/-- A file system without files. -/
def emptyFs : FileSystem := fun _ => none

/-! ## The body of the row loop -/

/-- One pass through the body of the `while (1)` loop of `CsvParser::readCsvFile`, entered with
the values of `entireFile` and `csvTable`: `Sum.inl` is the value of the `return`, `Sum.inr`
holds the buffer and the table with which the next iteration starts. -/
def readBody (p : CsvParser) (entireFile : Str) (csvTable : CsvTable) :
    Option ((Bool × CsvTable) ⊕ (Str × CsvTable)) :=
  let found := strFind entireFile p.m_rowDelimiter 0
  let csvLine : Str :=
    if found = npos then entireFile.take entireFile.length else entireFile.take found
  let entireFile1 : Str :=
    if found = npos then entireFile.drop entireFile.length
    else entireFile.drop (found + p.m_rowDelimiter.length)
  if csvLine.isEmpty then some (Sum.inl (false, csvTable))
  else
    match p.convertRowStringToRowFields csvLine (CsvRow.ctor 0) with
    | none => none
    | some (true, csvRow) => some (Sum.inr (entireFile1, (csvTable.addRow csvRow).2))
    | some (false, _) => some (Sum.inr (entireFile1, csvTable))

/-! ## Machine arithmetic -/

theorem sizeSubOne_zero : sizeSubOne 0 = 2 ^ 64 - 1 := by
  decide

theorem sizeSubOne_pos {n : Nat} (h0 : 0 < n) (h : n < 2 ^ 64) : sizeSubOne n = n - 1 := by
  unfold sizeSubOne
  omega

theorem toInt_npos : toInt npos = -1 := by
  decide

theorem toInt_small {n : Nat} (h : n < 2 ^ 31) : toInt n = (n : Int) := by
  unfold toInt
  have h1 : n % 2 ^ 32 = n := Nat.mod_eq_of_lt (by omega)
  rw [h1, if_pos h]

theorem toInt_small_ne_npos {n : Nat} (h : n < 2 ^ 31) : toInt n ≠ toInt npos := by
  rw [toInt_small h, toInt_npos]
  omega

theorem toSizeT_natCast {n : Nat} (h : n < 2 ^ 64) : toSizeT (n : Int) = n := by
  unfold toSizeT
  omega

/-! ## CsvRow and CsvTable accessors -/

theorem getField_in_range (r : CsvRow) (idx : Nat) (field : Str) (h : idx < r.m_rowData.length)
    (hsize : r.m_rowData.length < 2 ^ 64) :
    r.getField idx field = some (true, r.m_rowData[idx]) := by
  unfold CsvRow.getField
  rw [sizeSubOne_pos (by omega) hsize, if_neg (by omega)]
  simp [List.getElem?_eq_getElem h]

theorem getField_past_end (r : CsvRow) (idx : Nat) (field : Str) (h0 : 0 < r.m_rowData.length)
    (hsize : r.m_rowData.length < 2 ^ 64) (h : r.m_rowData.length ≤ idx) :
    r.getField idx field = some (false, field) := by
  unfold CsvRow.getField
  rw [sizeSubOne_pos h0 hsize, if_pos (by omega)]

theorem getField_no_fields (rowSize idx : Nat) (field : Str) (h : idx < 2 ^ 64) :
    CsvRow.getField ⟨rowSize, []⟩ idx field = none := by
  unfold CsvRow.getField
  simp only [List.length_nil, sizeSubOne_zero]
  rw [if_neg (by omega)]
  simp

/-! ## std::string::find -/

theorem findAux_bounds (pat : Str) : ∀ (s : Str) (i q : Nat),
    findAux pat s i = some q → i ≤ q ∧ q ≤ i + s.length := by
  intro s
  induction s with
  | nil =>
    intro i q h
    simp only [findAux] at h
    split at h
    · simp only [Option.some.injEq] at h
      simp [h]
    · simp at h
  | cons c cs ih =>
    intro i q h
    simp only [findAux] at h
    split at h
    · simp only [Option.some.injEq] at h
      simp [← h]
    · have := ih (i + 1) q h
      simp only [List.length_cons]
      omega

theorem findAux_single_none (c : Char) : ∀ (s : Str) (i : Nat), c ∉ s →
    findAux [c] s i = none := by
  intro s
  induction s with
  | nil => intro i _; simp [findAux]
  | cons x xs ih =>
    intro i h
    simp only [List.mem_cons, not_or] at h
    simp only [findAux, List.isPrefixOf, Bool.and_true, beq_iff_eq]
    rw [if_neg h.1]
    exact ih (i + 1) h.2

theorem findAux_single_first (c : Char) : ∀ (a b : Str) (i : Nat), c ∉ a →
    findAux [c] (a ++ c :: b) i = some (i + a.length) := by
  intro a
  induction a with
  | nil => intro b i _; simp [findAux, List.isPrefixOf]
  | cons x xs ih =>
    intro b i h
    simp only [List.mem_cons, not_or] at h
    rw [List.cons_append]
    simp only [findAux, List.isPrefixOf, Bool.and_true, beq_iff_eq]
    rw [if_neg h.1, ih b (i + 1) h.2]
    simp only [List.length_cons, Option.some.injEq]
    omega

theorem strFind_cases (s pat : Str) (pos : Nat) :
    strFind s pat pos = npos ∨ (pos ≤ strFind s pat pos ∧ strFind s pat pos ≤ s.length) := by
  unfold strFind
  split
  · exact Or.inl rfl
  · rename_i hpos
    cases h : findAux pat (s.drop pos) pos with
    | none => exact Or.inl rfl
    | some q =>
      have := findAux_bounds pat _ _ _ h
      simp only [List.length_drop] at this
      refine Or.inr ?_
      simp only [Option.getD_some]
      omega

theorem strFind_single_none (c : Char) (s : Str) (pos : Nat) (h : c ∉ s.drop pos) :
    strFind s [c] pos = npos := by
  unfold strFind
  split
  · rfl
  · rw [findAux_single_none c _ _ h]
    rfl

theorem strFind_single_first (c : Char) (pre a b : Str) (h : c ∉ a) :
    strFind (pre ++ a ++ c :: b) [c] pre.length = pre.length + a.length := by
  unfold strFind
  rw [if_neg (by simp only [List.length_append]; omega)]
  rw [List.append_assoc, List.drop_left, findAux_single_first c a b _ h]
  rfl

/-- A text is free of `c`, or it splits at the first `c`. -/
theorem split_at_first (c : Char) : ∀ s : Str,
    c ∉ s ∨ ∃ a b, s = a ++ c :: b ∧ c ∉ a := by
  intro s
  induction s with
  | nil => exact Or.inl (by simp)
  | cons x xs ih =>
    by_cases hx : x = c
    · exact Or.inr ⟨[], xs, by simp [hx], by simp⟩
    · rcases ih with h | ⟨a, b, hab, ha⟩
      · refine Or.inl ?_
        simp only [List.mem_cons, not_or]
        exact ⟨fun e => hx e.symm, h⟩
      · refine Or.inr ⟨x :: a, b, by simp [hab], ?_⟩
        simp only [List.mem_cons, not_or]
        exact ⟨fun e => hx e.symm, ha⟩

/-! ## The field splitter on lines shorter than 2 ^ 31 characters -/

theorem copyChars_tail (line : Str) (n : Nat) (h : line.length < 2 ^ 31) :
    copyChars line ((n : Int) + 1) (toInt line.length) = line.drop (n + 1) := by
  unfold copyChars
  rw [toInt_small h]
  have h1 : ((n : Int) + 1).toNat = n + 1 := by omega
  rw [h1]
  apply List.take_of_length_le
  simp only [List.length_drop]
  omega

theorem copyChars_first (line : Str) (f : Nat) :
    copyChars line 0 (f : Int) = line.take f := by
  unfold copyChars
  simp

theorem copyChars_mid (line : Str) (n f : Nat) :
    copyChars line ((n : Int) + 1) (f : Int) = (line.drop (n + 1)).take (f - (n + 1)) := by
  unfold copyChars
  have h1 : ((n : Int) + 1).toNat = n + 1 := by omega
  have h2 : ((f : Int) - ((n : Int) + 1)).toNat = f - (n + 1) := by omega
  rw [h1, h2]

/-- One iteration of the splitting loop, with the positions read as natural numbers. -/
theorem convertLoop_step (p : CsvParser) (line : Str) (hlen : line.length < 2 ^ 31)
    (fuel n : Nat) (hn : n ≤ line.length) (first : Bool) (row : CsvRow) :
    convertLoop p line (fuel + 1) (n : Int) first row =
      if strFind line p.m_fieldDelimiter (if first then n else n + 1) = npos then
        some (row.addField (line.drop (n + 1))).2
      else
        convertLoop p line fuel
          ((strFind line p.m_fieldDelimiter (if first then n else n + 1) : Nat) : Int) false
          (row.addField
            (if n = 0 then line.take (strFind line p.m_fieldDelimiter (if first then n else n + 1))
             else (line.drop (n + 1)).take
               (strFind line p.m_fieldDelimiter (if first then n else n + 1) - (n + 1)))).2 := by
  have hpos : (if first then
        toInt (strFind line p.m_fieldDelimiter (toSizeT (n : Int)))
      else toInt (strFind line p.m_fieldDelimiter (toSizeT ((n : Int) + 1)))) =
      toInt (strFind line p.m_fieldDelimiter (if first then n else n + 1)) := by
    have h1 : toSizeT (n : Int) = n := toSizeT_natCast (by omega)
    have h2 : toSizeT ((n : Int) + 1) = n + 1 := by
      have := toSizeT_natCast (n := n + 1) (by omega)
      simpa using this
    cases first <;> simp [h1, h2]
  have hcases := strFind_cases line p.m_fieldDelimiter (if first then n else n + 1)
  rw [convertLoop]
  simp only [hpos]
  generalize strFind line p.m_fieldDelimiter (if first then n else n + 1) = f at *
  by_cases hf : f = npos
  · subst hf
    simp only [if_true]
    rw [copyChars_tail line n hlen]
  · have hfl : f ≤ line.length := by
      rcases hcases with h | h
      · exact absurd h hf
      · exact h.2
    have hne : toInt f ≠ toInt npos := toInt_small_ne_npos (by omega)
    rw [if_neg hne, if_neg hne, if_neg hf, toInt_small (by omega)]
    by_cases h0 : n = 0
    · subst h0
      simp only [Nat.cast_zero, if_true]
      rw [copyChars_first]
    · have h0i : ¬ ((n : Int) = 0) := by omega
      rw [if_neg h0i, if_neg h0, copyChars_mid]

/-- The splitting loop stops within the iterations it is given, whatever the delimiter. -/
theorem convertLoop_terminates (p : CsvParser) (line : Str) (hlen : line.length < 2 ^ 31) :
    ∀ (fuel n : Nat) (first : Bool) (row : CsvRow), n ≤ line.length →
      line.length - n + 1 + (if first then 1 else 0) ≤ fuel →
      ∃ r, convertLoop p line fuel (n : Int) first row = some r := by
  intro fuel
  induction fuel with
  | zero =>
    intro n first row _ hf
    omega
  | succ k ih =>
    intro n first row hn hf
    rw [convertLoop_step p line hlen k n hn first row]
    cases first
    · simp only [Bool.false_eq_true, if_false] at hf ⊢
      rcases strFind_cases line p.m_fieldDelimiter (n + 1) with h | ⟨h1, h2⟩
      · rw [if_pos h]
        exact ⟨_, rfl⟩
      · by_cases hnp : strFind line p.m_fieldDelimiter (n + 1) = npos
        · rw [if_pos hnp]
          exact ⟨_, rfl⟩
        · rw [if_neg hnp]
          apply ih _ false _ h2
          simp only [Bool.false_eq_true, if_false]
          omega
    · simp only [if_true] at hf ⊢
      rcases strFind_cases line p.m_fieldDelimiter n with h | ⟨h1, h2⟩
      · rw [if_pos h]
        exact ⟨_, rfl⟩
      · by_cases hnp : strFind line p.m_fieldDelimiter n = npos
        · rw [if_pos hnp]
          exact ⟨_, rfl⟩
        · rw [if_neg hnp]
          apply ih _ false _ h2
          simp only [Bool.false_eq_true, if_false]
          omega

theorem convert_terminates (p : CsvParser) (line : Str) (hlen : line.length < 2 ^ 31)
    (row : CsvRow) : ∃ r, p.convertRowStringToRowFields line row = some (true, r) := by
  obtain ⟨r, hr⟩ := convertLoop_terminates p line hlen (line.length + 2) 0 true row
    (Nat.zero_le _) (by simp)
  refine ⟨r, ?_⟩
  unfold CsvParser.convertRowStringToRowFields
  have hr0 : convertLoop p line (line.length + 2) 0 true row = some r := by
    simpa using hr
  rw [hr0]
  rfl

/-- After a delimiter at a position other than 0, the loop appends the split of the rest. -/
theorem convertLoop_single_tail (p : CsvParser) (c : Char) (hfd : p.m_fieldDelimiter = [c]) :
    ∀ (fuel n : Nat) (pre s : Str) (row : CsvRow), (pre ++ s).length < 2 ^ 31 →
      pre.length = n + 1 → 1 ≤ n → s.length + 1 ≤ fuel →
      convertLoop p (pre ++ s) fuel (n : Int) false row =
        some ⟨row.m_rowSize, row.m_rowData ++ s.splitOn c⟩ := by
  intro fuel
  induction fuel with
  | zero =>
    intro n pre s row _ _ _ hf
    omega
  | succ k ih =>
    intro n pre s row hlen hpre hn hf
    rw [convertLoop_step p (pre ++ s) hlen k n (by simp only [List.length_append]; omega)
      false row]
    simp only [Bool.false_eq_true, if_false, hfd]
    have hdrop : (pre ++ s).drop (n + 1) = s := by
      rw [← hpre, List.drop_left]
    rcases split_at_first c s with hs | ⟨a, b, hab, ha⟩
    · rw [strFind_single_none c _ _ (by rw [hdrop]; exact hs), if_pos rfl, hdrop]
      have hsp : s.splitOn c = [s] := by
        unfold List.splitOn
        apply List.splitOnP_eq_single
        intro x hx hxc
        simp only [beq_iff_eq] at hxc
        exact hs (hxc ▸ hx)
      rw [hsp]
      rfl
    · subst hab
      have hfind : strFind (pre ++ (a ++ c :: b)) [c] (n + 1) = n + 1 + a.length := by
        rw [← List.append_assoc, ← hpre]
        exact strFind_single_first c pre a b ha
      simp only [List.length_append, List.length_cons] at hlen hf
      rw [hfind, if_neg (by unfold npos; omega), if_neg (by omega), hdrop]
      have htake : (a ++ c :: b).take (n + 1 + a.length - (n + 1)) = a := by
        rw [Nat.add_sub_cancel_left, List.take_left]
      rw [htake]
      have hline : pre ++ (a ++ c :: b) = (pre ++ a ++ [c]) ++ b := by simp
      rw [hline, ih (n + 1 + a.length) (pre ++ a ++ [c]) b _
        (by simp only [List.length_append, List.length_cons, List.length_nil]; omega)
        (by simp only [List.length_append, List.length_cons, List.length_nil]; omega)
        (by omega) (by omega)]
      have hsp : (a ++ c :: b).splitOn c = a :: b.splitOn c := by
        unfold List.splitOn
        apply List.splitOnP_first
        · intro x hx hxc
          simp only [beq_iff_eq] at hxc
          exact ha (hxc ▸ hx)
        · simp
      rw [hsp]
      simp [CsvRow.addField]

theorem splitOn_free (c : Char) (s : Str) (hs : c ∉ s) : s.splitOn c = [s] := by
  unfold List.splitOn
  apply List.splitOnP_eq_single
  intro x hx hxc
  simp only [beq_iff_eq] at hxc
  exact hs (hxc ▸ hx)

theorem splitOn_first (c : Char) (a b : Str) (ha : c ∉ a) :
    (a ++ c :: b).splitOn c = a :: b.splitOn c := by
  unfold List.splitOn
  apply List.splitOnP_first
  · intro x hx hxc
    simp only [beq_iff_eq] at hxc
    exact ha (hxc ▸ hx)
  · simp

/-- A line without the delimiter gives one field: the line without its first character. -/
theorem convert_not_found (p : CsvParser) (line : Str) (hlen : line.length < 2 ^ 31)
    (hfind : strFind line p.m_fieldDelimiter 0 = npos) (row : CsvRow) :
    p.convertRowStringToRowFields line row =
      some (true, ⟨row.m_rowSize, row.m_rowData ++ [line.drop 1]⟩) := by
  unfold CsvParser.convertRowStringToRowFields
  have h := convertLoop_step p line hlen (line.length + 1) 0 (Nat.zero_le _) true row
  simp only [Nat.cast_zero, if_true, hfind] at h
  rw [h]
  rfl

/-- A line whose first delimiter is not at position 0 is split at every delimiter. -/
theorem convert_single_split (p : CsvParser) (c : Char) (hfd : p.m_fieldDelimiter = [c])
    (a b : Str) (ha : c ∉ a) (hne : a ≠ []) (hlen : (a ++ c :: b).length < 2 ^ 31)
    (row : CsvRow) :
    p.convertRowStringToRowFields (a ++ c :: b) row =
      some (true, ⟨row.m_rowSize, row.m_rowData ++ (a ++ c :: b).splitOn c⟩) := by
  unfold CsvParser.convertRowStringToRowFields
  have hapos : 1 ≤ a.length := by
    cases a with
    | nil => exact absurd rfl hne
    | cons x xs => simp
  have hfind : strFind (a ++ c :: b) [c] 0 = a.length := by
    have := strFind_single_first c [] a b ha
    simpa using this
  have h := convertLoop_step p (a ++ c :: b) hlen ((a ++ c :: b).length + 1) 0
    (Nat.zero_le _) true row
  simp only [Nat.cast_zero, if_true, hfd, hfind] at h
  have hlen1 : a.length + (b.length + 1) < 2 ^ 31 := by
    simpa only [List.length_append, List.length_cons] using hlen
  rw [if_neg (by unfold npos; omega), List.take_left] at h
  rw [h]
  have hline : a ++ c :: b = (a ++ [c]) ++ b := by simp
  have hlen2 : ((a ++ [c]) ++ b).length < 2 ^ 31 := by rw [← hline]; exact hlen
  have ht := convertLoop_single_tail p c hfd ((a ++ c :: b).length + 1) a.length (a ++ [c]) b
    (row.addField a).2 hlen2 (by simp) hapos
    (by simp only [List.length_append, List.length_cons]; omega)
  rw [← hline] at ht
  rw [ht, splitOn_first c a b ha]
  simp [CsvRow.addField]

/-- A line that is one delimiter followed by a text without delimiter gives the empty field
and that text. -/
theorem convert_single_leading (p : CsvParser) (c : Char) (hfd : p.m_fieldDelimiter = [c])
    (b : Str) (hb : c ∉ b) (hlen : (c :: b).length < 2 ^ 31) (row : CsvRow) :
    p.convertRowStringToRowFields (c :: b) row =
      some (true, ⟨row.m_rowSize, row.m_rowData ++ [[], b]⟩) := by
  unfold CsvParser.convertRowStringToRowFields
  have hfind : strFind (c :: b) [c] 0 = 0 := by
    have := strFind_single_first c [] [] b (by simp)
    simpa using this
  have h := convertLoop_step p (c :: b) hlen ((c :: b).length + 1) 0 (Nat.zero_le _) true row
  simp only [Nat.cast_zero, if_true, hfd, hfind] at h
  rw [if_neg (by decide)] at h
  have h2 := convertLoop_step p (c :: b) hlen (c :: b).length 0 (Nat.zero_le _) false
    (row.addField (List.take 0 (c :: b))).2
  simp only [Nat.cast_zero, Bool.false_eq_true, if_false, hfd, Nat.zero_add] at h2
  rw [strFind_single_none c (c :: b) 1 (by simpa using hb), if_pos rfl] at h2
  rw [h, h2]
  simp [CsvRow.addField]

/-! ## The row loop of readCsvFile -/

/-- One iteration of the row loop when the row delimiter is not in the buffer. -/
theorem readLoop_not_found (p : CsvParser) (fuel : Nat) (buffer : Str) (t : CsvTable)
    (h : strFind buffer p.m_rowDelimiter 0 = npos) :
    readLoop p (fuel + 1) buffer t =
      if buffer.isEmpty then some (false, t)
      else
        match p.convertRowStringToRowFields buffer (CsvRow.ctor 0) with
        | none => none
        | some (true, csvRow) => readLoop p fuel [] (t.addRow csvRow).2
        | some (false, _) => readLoop p fuel [] t := by
  rw [readLoop]
  simp only [h, if_true, List.take_length, List.drop_length]

/-- One iteration of the row loop when the row delimiter is found in the buffer. -/
theorem readLoop_found (p : CsvParser) (fuel : Nat) (buffer : Str) (t : CsvTable)
    (h : strFind buffer p.m_rowDelimiter 0 ≠ npos) :
    readLoop p (fuel + 1) buffer t =
      if (buffer.take (strFind buffer p.m_rowDelimiter 0)).isEmpty then some (false, t)
      else
        match p.convertRowStringToRowFields (buffer.take (strFind buffer p.m_rowDelimiter 0))
          (CsvRow.ctor 0) with
        | none => none
        | some (true, csvRow) =>
          readLoop p fuel
            (buffer.drop (strFind buffer p.m_rowDelimiter 0 + p.m_rowDelimiter.length))
            (t.addRow csvRow).2
        | some (false, _) =>
          readLoop p fuel
            (buffer.drop (strFind buffer p.m_rowDelimiter 0 + p.m_rowDelimiter.length)) t := by
  rw [readLoop]
  simp only [h, if_false]

/-- The row loop on a buffer shorter than 2 ^ 31 characters stops within the iterations it is
given, whatever the delimiters, and every exit is the `return false`. -/
theorem readLoop_returns_false (p : CsvParser) :
    ∀ (fuel : Nat) (buffer : Str) (t : CsvTable), buffer.length < 2 ^ 31 →
      buffer.length + 1 ≤ fuel → ∃ t1, readLoop p fuel buffer t = some (false, t1) := by
  intro fuel
  induction fuel with
  | zero =>
    intro buffer t _ hf
    omega
  | succ k ih =>
    intro buffer t hlen hf
    by_cases hnp : strFind buffer p.m_rowDelimiter 0 = npos
    · rw [readLoop_not_found p k buffer t hnp]
      split
      · exact ⟨_, rfl⟩
      · rename_i hne
        have hpos : 0 < buffer.length := by
          apply List.length_pos.mpr
          intro hnil
          rw [hnil] at hne
          simp at hne
        obtain ⟨r, hr⟩ := convert_terminates p buffer hlen (CsvRow.ctor 0)
        rw [hr]
        exact ih _ _ (by simp) (by simp only [List.length_nil]; omega)
    · rw [readLoop_found p k buffer t hnp]
      split
      · exact ⟨_, rfl⟩
      · rename_i hline
        have hpos : 0 < (buffer.take (strFind buffer p.m_rowDelimiter 0)).length := by
          apply List.length_pos.mpr
          intro hnil
          rw [hnil] at hline
          simp at hline
        simp only [List.length_take] at hpos
        obtain ⟨r, hr⟩ := convert_terminates p
          (buffer.take (strFind buffer p.m_rowDelimiter 0))
          (by simp only [List.length_take]; omega) (CsvRow.ctor 0)
        rw [hr]
        exact ih _ _ (by simp only [List.length_drop]; omega)
          (by simp only [List.length_drop]; omega)

/-- An empty buffer ends the row loop. -/
theorem readLoop_nil (p : CsvParser) (fuel : Nat) (t : CsvTable) :
    readLoop p (fuel + 1) [] t = some (false, t) := by
  rw [readLoop]
  simp

/-- An empty line ends the row loop. -/
theorem readLoop_empty_line (p : CsvParser) (d : Char) (hrd : p.m_rowDelimiter = [d])
    (fuel : Nat) (rest : Str) (t : CsvTable) :
    readLoop p (fuel + 1) (d :: rest) t = some (false, t) := by
  have hfind : strFind (d :: rest) p.m_rowDelimiter 0 = 0 := by
    have := strFind_single_first d [] [] rest (by simp)
    rw [hrd]
    simpa using this
  rw [readLoop_found p fuel _ t (by rw [hfind]; decide), hfind]
  simp

/-- A non-empty line followed by the row delimiter becomes one more row. -/
theorem readLoop_line (p : CsvParser) (d : Char) (hrd : p.m_rowDelimiter = [d])
    (fuel : Nat) (l rest : Str) (hl : l ≠ []) (hd : d ∉ l) (hlen : l.length < 2 ^ 31)
    (t : CsvTable) (r : CsvRow)
    (hconv : p.convertRowStringToRowFields l (CsvRow.ctor 0) = some (true, r)) :
    readLoop p (fuel + 1) (l ++ d :: rest) t = readLoop p fuel rest (t.addRow r).2 := by
  have hfind : strFind (l ++ d :: rest) p.m_rowDelimiter 0 = l.length := by
    have := strFind_single_first d [] l rest hd
    rw [hrd]
    simpa using this
  rw [readLoop_found p fuel _ t (by rw [hfind]; unfold npos; omega), hfind]
  have hdrop : List.drop (l.length + p.m_rowDelimiter.length) (l ++ d :: rest) = rest := by
    rw [hrd]
    simp
  rw [List.take_left, hdrop, hconv]
  cases l with
  | nil => exact absurd rfl hl
  | cons x xs => simp

theorem length_le_fileOfLines (d : Char) : ∀ lines : List Str,
    lines.length ≤ (fileOfLines [d] lines).length := by
  intro lines
  induction lines with
  | nil => simp
  | cons l ls ih =>
    simp only [fileOfLines, List.length_cons, List.length_append, List.length_nil]
    omega

/-- The row loop on terminated non-empty lines appends one row per line. -/
theorem readLoop_fileOfLines (p : CsvParser) (d : Char) (hrd : p.m_rowDelimiter = [d]) :
    ∀ (lines : List Str) (fuel : Nat) (t : CsvTable), (∀ l ∈ lines, l ≠ [] ∧ d ∉ l) →
      (fileOfLines [d] lines).length < 2 ^ 31 → lines.length + 1 ≤ fuel →
      ∃ rows, readLoop p fuel (fileOfLines [d] lines) t =
          some (false, ⟨t.m_numOfRows, t.m_rows ++ rows⟩) ∧
        List.Forall₂ (fun l r => p.convertRowStringToRowFields l (CsvRow.ctor 0) = some (true, r))
          lines rows := by
  intro lines
  induction lines with
  | nil =>
    intro fuel t _ _ hf
    obtain ⟨k, rfl⟩ : ∃ k, fuel = k + 1 := ⟨fuel - 1, by simp at hf; omega⟩
    refine ⟨[], ?_, List.Forall₂.nil⟩
    simp [fileOfLines, readLoop_nil]
  | cons l ls ih =>
    intro fuel t hlines hlen hf
    obtain ⟨k, rfl⟩ : ∃ k, fuel = k + 1 := ⟨fuel - 1, by simp at hf; omega⟩
    have hl := hlines l (List.mem_cons_self _ _)
    have htext : fileOfLines [d] (l :: ls) = l ++ d :: fileOfLines [d] ls := by
      simp [fileOfLines]
    rw [htext] at hlen ⊢
    simp only [List.length_append, List.length_cons] at hlen
    obtain ⟨r, hr⟩ := convert_terminates p l (by omega) (CsvRow.ctor 0)
    rw [readLoop_line p d hrd k l _ hl.1 hl.2 (by omega) t r hr]
    obtain ⟨rows, hrows, hall⟩ := ih k (t.addRow r).2
      (fun x hx => hlines x (List.mem_cons_of_mem _ hx)) (by omega)
      (by simp only [List.length_cons] at hf; omega)
    refine ⟨r :: rows, ?_, List.Forall₂.cons hr hall⟩
    rw [hrows]
    simp [CsvTable.addRow]

/-- Claim C3.  With a single-character field delimiter `c`, a line shorter than 2 ^ 31
characters that contains `c` and does not start with `c` is converted, from an empty row, into
exactly the fields obtained by splitting the line at every occurrence of `c`, in order, empty
fields included. -/
theorem convertRowStringToRowFields_splits_at_delimiter (p : CsvParser) (c : Char)
    (line : Str) (hfd : p.m_fieldDelimiter = [c]) (hmem : c ∈ line)
    (hhead : line.head? ≠ some c) (hlen : line.length < 2 ^ 31) :
    p.convertRowStringToRowFields line (CsvRow.ctor 0) = some (true, ⟨0, line.splitOn c⟩) := by
  rcases split_at_first c line with hfree | ⟨a, b, hab, ha⟩
  · exact absurd hmem hfree
  · subst hab
    have hne : a ≠ [] := by
      intro h
      subst h
      simp at hhead
    rw [convert_single_split p c hfd a b ha hne hlen (CsvRow.ctor 0)]
    simp [CsvRow.ctor]

/-- Claim C3 at the line `a;b;c` with the delimiter `;`: the fields `a`, `b`, `c`. -/
theorem convertRowStringToRowFields_splits_at_delimiter_witness :
    (';' ∈ "a;b;c".toList ∧ "a;b;c".toList.head? ≠ some ';' ∧
      "a;b;c".toList.length < 2 ^ 31) ∧
    defaultParser.convertRowStringToRowFields "a;b;c".toList
      (CsvRow.ctor 0) = some (true, ⟨0, ["a".toList, "b".toList, "c".toList]⟩) :=
  ⟨⟨by decide, by decide, by decide⟩,
    (convertRowStringToRowFields_splits_at_delimiter defaultParser
      ';' "a;b;c".toList rfl (by decide) (by decide) (by decide)).trans (by decide)⟩

/-- Claim C2.  What the code does on a line without field delimiter: the line `abc` with the
delimiter `;` is converted into the single field `bc`, the line without its first character,
where the claim promises the field `abc`. -/
theorem convertRowStringToRowFields_line_without_delimiter :
    ¬ (';' ∈ "abc".toList) ∧
    defaultParser.convertRowStringToRowFields "abc".toList
      (CsvRow.ctor 0) = some (true, ⟨0, ["bc".toList]⟩) := by
  decide

/-- Claim C7.  What the code does on a line that begins with the delimiter: the line `;b;c`
with the delimiter `;` is converted into the empty field, `;b` and `c`; the second field keeps
the delimiter at position 0, where the claim promises the empty field, `b` and `c`. -/
theorem convertRowStringToRowFields_line_with_leading_delimiter :
    defaultParser.convertRowStringToRowFields ";b;c".toList
      (CsvRow.ctor 0) = some (true, ⟨0, ["".toList, ";b".toList, "c".toList]⟩) := by
  decide

/-- Every file that can be opened and is shorter than 2 ^ 31 characters makes `readCsvFile`
return `false`, whatever the delimiters. -/
theorem readCsvFile_opened_returns_false (p : CsvParser) (fs : FileSystem) (fileName : Str)
    (content : Str) (t : CsvTable) (hfile : fs fileName = some content)
    (hlen : content.length < 2 ^ 31) :
    ∃ t1, p.readCsvFile fs fileName t = some (false, t1) := by
  unfold CsvParser.readCsvFile
  rw [hfile]
  exact readLoop_returns_false p _ content t hlen (Nat.le_refl _)

/-- Claim C4.  What the code does on a file that can be opened: the content `a;b` followed by
a newline is parsed into the one row `a`, `b`, and `readCsvFile` returns `false`, where the
claim promises `true`. -/
theorem readCsvFile_parsed_file_returns_false :
    defaultParser.readCsvFile
      (emptyFs.write "t.csv".toList "a;b\n".toList) "t.csv".toList (CsvTable.ctor 0) =
      some (false, ⟨0, [⟨0, ["a".toList, "b".toList]⟩]⟩) := by
  decide

/-- With a single-character row delimiter `d`, a file shorter than 2 ^ 31 characters whose
content is `l₁ d l₂ d … lₙ d`, every `lᵢ` non-empty and free of `d`, is read into an empty
table as exactly `n` rows, the `i`-th row being what `convertRowStringToRowFields` returns for
`lᵢ`: no row is appended for the text after the last delimiter. -/
theorem readCsvFile_no_spurious_trailing_row (p : CsvParser) (d : Char) (lines : List Str)
    (fs : FileSystem) (fileName : Str) (hrd : p.m_rowDelimiter = [d])
    (hlines : ∀ l ∈ lines, l ≠ [] ∧ d ∉ l)
    (hfile : fs fileName = some (fileOfLines [d] lines))
    (hlen : (fileOfLines [d] lines).length < 2 ^ 31) :
    ∃ b t, p.readCsvFile fs fileName (CsvTable.ctor 0) = some (b, t) ∧
      t.getRowNumbers = lines.length ∧
      List.Forall₂
        (fun l r => p.convertRowStringToRowFields l (CsvRow.ctor 0) = some (true, r))
        lines t.m_rows := by
  unfold CsvParser.readCsvFile
  rw [hfile]
  obtain ⟨rows, hrows, hall⟩ := readLoop_fileOfLines p d hrd lines
    ((fileOfLines [d] lines).length + 1) (CsvTable.ctor 0) hlines hlen
    (by have := length_le_fileOfLines d lines; omega)
  refine ⟨false, _, hrows, ?_, ?_⟩
  · simp [CsvTable.getRowNumbers, CsvTable.ctor, hall.length_eq]
  · simpa [CsvTable.ctor] using hall

/-- The content `a,b` followed by a newline is read as exactly one row. -/
theorem readCsvFile_no_spurious_trailing_row_witness :
    (∃ b t, defaultParser.readCsvFile
        (emptyFs.write "t.csv".toList "a,b\n".toList) "t.csv".toList (CsvTable.ctor 0) =
        some (b, t) ∧
      t.getRowNumbers = 1 ∧
      List.Forall₂
        (fun l r => defaultParser.convertRowStringToRowFields l
          (CsvRow.ctor 0) = some (true, r))
        ["a,b".toList] t.m_rows) :=
  readCsvFile_no_spurious_trailing_row defaultParser '\n'
    ["a,b".toList] (emptyFs.write "t.csv".toList "a,b\n".toList) "t.csv".toList rfl
    (by decide) (by decide) (by decide)

/-- Claim C8.  A file name that the file system does not hold cannot be opened: `readCsvFile`
returns `false` and the table of the caller is returned as it was passed in. -/
theorem readCsvFile_unopened_file (p : CsvParser) (fs : FileSystem) (fileName : Str)
    (t : CsvTable) (hfile : fs fileName = none) :
    p.readCsvFile fs fileName t = some (false, t) := by
  unfold CsvParser.readCsvFile
  rw [hfile]

/-- Claim C8 at a name that the empty file system does not hold. -/
theorem readCsvFile_unopened_file_witness :
    emptyFs "missing.csv".toList = none ∧
    defaultParser.readCsvFile emptyFs "missing.csv".toList
      ⟨0, [⟨0, ["a".toList, "b".toList]⟩]⟩ = some (false, ⟨0, [⟨0, ["a".toList, "b".toList]⟩]⟩) :=
  ⟨rfl, readCsvFile_unopened_file defaultParser emptyFs
    "missing.csv".toList ⟨0, [⟨0, ["a".toList, "b".toList]⟩]⟩ rfl⟩

/-! ## The writer -/

theorem intercalate_cons_cons (fd f g : Str) (rest : List Str) :
    fd.intercalate (f :: g :: rest) = f ++ fd ++ fd.intercalate (g :: rest) := by
  simp [List.intercalate, List.intersperse]

theorem intercalate_single (fd f : Str) : fd.intercalate [f] = f := by
  simp [List.intercalate, List.intersperse]

theorem put_ok (dev : Nat → Bool) (hdev : ∀ k, dev k = false) (o : OStream)
    (ho : o.failed = false) (s : Str) :
    (o.put dev s).failed = false ∧ (o.put dev s).text = o.text ++ s := by
  unfold OStream.put
  simp [ho, hdev]

/-- The field loop on a healthy stream writes the remaining fields joined by the field
delimiter. -/
theorem writeFields_ok (p : CsvParser) (dev : Nat → Bool) (hdev : ∀ k, dev k = false)
    (row : CsvRow) (hsize : row.m_rowData.length < 2 ^ 64) :
    ∀ (k y : Nat) (field : Str) (out : OStream), y + k = row.m_rowData.length →
      out.failed = false →
      ∃ field1 out1, writeFields p dev row k y field out = some (true, field1, out1) ∧
        out1.failed = false ∧
        out1.text = out.text ++ p.m_fieldDelimiter.intercalate (row.m_rowData.drop y) := by
  intro k
  induction k with
  | zero =>
    intro y field out hy ho
    refine ⟨field, out, rfl, ho, ?_⟩
    have hy0 : row.m_rowData.length ≤ y := by omega
    rw [List.drop_of_length_le hy0]
    simp [List.intercalate]
  | succ k ih =>
    intro y field out hy ho
    have hlt : y < row.m_rowData.length := by omega
    rw [writeFields, getField_in_range row y field hlt hsize]
    simp only
    obtain ⟨hf1, ht1⟩ := put_ok dev hdev out ho (row.m_rowData[y])
    have hc1 : isOStreamCorrect (out.put dev (row.m_rowData[y])) = true := by
      simp [isOStreamCorrect, hf1]
    have hdrop : row.m_rowData.drop y =
        row.m_rowData[y] :: row.m_rowData.drop (y + 1) := by
      exact List.drop_eq_getElem_cons hlt
    rw [hc1]
    simp only [Bool.not_true, Bool.false_eq_true, if_false, CsvRow.getNumOfFields]
    have hsub : sizeSubOne row.m_rowData.length = row.m_rowData.length - 1 :=
      sizeSubOne_pos (by omega) hsize
    simp only [hsub]
    by_cases hlast : y = row.m_rowData.length - 1
    · have hk : k = 0 := by omega
      subst hk
      rw [if_neg (by simpa using hlast)]
      refine ⟨_, _, rfl, hf1, ?_⟩
      rw [ht1, hdrop, List.drop_of_length_le (by omega), intercalate_single]
    · rw [if_pos (by simpa using hlast)]
      obtain ⟨hf2, ht2⟩ := put_ok dev hdev _ hf1 p.m_fieldDelimiter
      have hc2 : isOStreamCorrect ((out.put dev (row.m_rowData[y])).put dev
          p.m_fieldDelimiter) = true := by
        simp [isOStreamCorrect, hf2]
      simp only [hc2, Bool.not_true, Bool.false_eq_true, if_false]
      obtain ⟨field1, out1, hw, hf3, ht3⟩ := ih (y + 1) (row.m_rowData[y]) _
        (by omega) hf2
      refine ⟨field1, out1, hw, hf3, ?_⟩
      have hlt2 : y + 1 < row.m_rowData.length := by omega
      have hdrop2 : row.m_rowData.drop (y + 1) =
          row.m_rowData[y + 1] :: row.m_rowData.drop (y + 1 + 1) := by
        exact List.drop_eq_getElem_cons hlt2
      rw [ht3, ht2, ht1, hdrop, hdrop2, intercalate_cons_cons]
      simp

theorem getRow_in_range (t : CsvTable) (idx : Nat) (row : CsvRow) (h : idx < t.m_rows.length)
    (hsize : t.m_rows.length < 2 ^ 64) :
    t.getRow idx row = some (true, t.m_rows[idx]) := by
  unfold CsvTable.getRow
  rw [sizeSubOne_pos (by omega) hsize, if_neg (by omega)]
  simp [List.getElem?_eq_getElem h]

theorem csvText_cons (fd rd : Str) (r : List Str) (rs : List (List Str)) :
    csvText fd rd (r :: rs) = fd.intercalate r ++ rd ++ csvText fd rd rs := by
  simp [csvText, fileOfLines]

/-- The row loop of the writer on a healthy stream writes the remaining rows, each followed by
the row delimiter. -/
theorem writeRows_ok (p : CsvParser) (dev : Nat → Bool) (hdev : ∀ k, dev k = false)
    (t : CsvTable) (hfit : t.fitsSizeT) :
    ∀ (k x : Nat) (row : CsvRow) (field : Str) (out : OStream), x + k = t.m_rows.length →
      out.failed = false →
      ∃ out1, writeRows p dev t k x row field out = some (true, out1) ∧
        out1.failed = false ∧
        out1.text = out.text ++
          csvText p.m_fieldDelimiter p.m_rowDelimiter
            ((t.m_rows.drop x).map CsvRow.m_rowData) := by
  intro k
  induction k with
  | zero =>
    intro x row field out hx ho
    refine ⟨out, rfl, ho, ?_⟩
    rw [List.drop_of_length_le (by omega)]
    simp [csvText, fileOfLines]
  | succ k ih =>
    intro x row field out hx ho
    have hlt : x < t.m_rows.length := by omega
    rw [writeRows, getRow_in_range t x row hlt hfit.1]
    simp only
    obtain ⟨field1, out1, hw, hf1, ht1⟩ := writeFields_ok p dev hdev t.m_rows[x]
      (hfit.2 _ (List.getElem_mem hlt)) t.m_rows[x].getNumOfFields 0 field out
      (by simp [CsvRow.getNumOfFields]) ho
    rw [hw]
    simp only
    obtain ⟨hf2, ht2⟩ := put_ok dev hdev out1 hf1 p.m_rowDelimiter
    have hc2 : isOStreamCorrect (out1.put dev p.m_rowDelimiter) = true := by
      simp [isOStreamCorrect, hf2]
    simp only [hc2, Bool.not_true, Bool.false_eq_true, if_false]
    obtain ⟨out3, hw3, hf3, ht3⟩ := ih (x + 1) t.m_rows[x] field1 _ (by omega) hf2
    refine ⟨out3, hw3, hf3, ?_⟩
    have hdrop : t.m_rows.drop x = t.m_rows[x] :: t.m_rows.drop (x + 1) :=
      List.drop_eq_getElem_cons hlt
    rw [ht3, ht2, ht1, hdrop, List.map_cons, csvText_cons]
    simp

/-- On a device without faults `createCsvFile` succeeds and the file holds the text of the
table. -/
theorem createCsvFile_ok (p : CsvParser) (dev : Nat → Bool) (fs : FileSystem)
    (fileName : Str) (t : CsvTable) (hdev : ∀ k, dev k = false) (hfit : t.fitsSizeT) :
    p.createCsvFile dev fs fileName t =
      some (true, fs.write fileName (csvText p.m_fieldDelimiter p.m_rowDelimiter t.fields)) := by
  unfold CsvParser.createCsvFile
  have hopen : (OStream.opened dev).failed = false := by simp [OStream.opened, hdev]
  have hc0 : isOStreamCorrect (OStream.opened dev) = true := by
    simp [isOStreamCorrect, hopen]
  simp only [hc0, Bool.not_true, Bool.false_eq_true, if_false]
  obtain ⟨out1, hw, hf1, ht1⟩ := writeRows_ok p dev hdev t hfit t.getRowNumbers 0
    (CsvRow.ctor 1) [] (OStream.opened dev) (by simp [CsvTable.getRowNumbers]) hopen
  rw [hw]
  simp only
  have hclose : (out1.close dev).failed = false ∧ (out1.close dev).text = out1.text := by
    unfold OStream.close
    simp [hdev, hf1]
  have hc1 : isOStreamCorrect (out1.close dev) = true := by
    simp [isOStreamCorrect, hclose.1]
  rw [hc1, hclose.2, ht1]
  simp [OStream.opened, CsvTable.fields]

theorem csvText_eq_join (fd rd : Str) (rows : List (List Str)) :
    csvText fd rd rows = (rows.map (fun fields => fd.intercalate fields ++ rd)).flatten := by
  induction rows with
  | nil => simp [csvText, fileOfLines]
  | cons r rs ih => rw [csvText_cons, ih]; simp

/-! ## Writing a table and reading it back -/

theorem mem_intercalate_single (c x : Char) : ∀ fields : List Str,
    x ∈ [c].intercalate fields → x = c ∨ ∃ f ∈ fields, x ∈ f := by
  intro fields
  induction fields with
  | nil => intro h; simp [List.intercalate] at h
  | cons f rest ih =>
    cases rest with
    | nil =>
      intro h
      rw [intercalate_single] at h
      exact Or.inr ⟨f, List.mem_cons_self _ _, h⟩
    | cons g rest2 =>
      intro h
      rw [intercalate_cons_cons] at h
      simp only [List.mem_append, List.mem_singleton] at h
      rcases h with (h | h) | h
      · exact Or.inr ⟨f, List.mem_cons_self _ _, h⟩
      · exact Or.inl h
      · rcases ih h with h1 | ⟨f1, hf1, hx⟩
        · exact Or.inl h1
        · exact Or.inr ⟨f1, List.mem_cons_of_mem _ hf1, hx⟩

theorem length_le_intercalate_single (c : Char) : ∀ fields : List Str,
    fields.length ≤ ([c].intercalate fields).length + 1 := by
  intro fields
  induction fields with
  | nil => simp
  | cons f rest ih =>
    cases rest with
    | nil => simp
    | cons g rest2 =>
      rw [intercalate_cons_cons]
      simp only [List.length_cons, List.length_append, List.length_nil] at ih ⊢
      omega

theorem length_le_fileOfLines_of_mem (rd : Str) : ∀ (lines : List Str) (l : Str),
    l ∈ lines → l.length ≤ (fileOfLines rd lines).length := by
  intro lines
  induction lines with
  | nil => intro l h; simp at h
  | cons x xs ih =>
    intro l h
    simp only [fileOfLines, List.length_append]
    rcases List.mem_cons.mp h with h1 | h1
    · subst h1
      omega
    · have := ih l h1
      omega

/-- The fields of a row with at least two fields, none of which holds the delimiter, and
with a non-empty first field when there are more than two, are recovered from the joined
line. -/
theorem convert_intercalate (p : CsvParser) (c : Char) (hfd : p.m_fieldDelimiter = [c])
    (fields : List Str) (h2 : 2 ≤ fields.length)
    (hhead : 3 ≤ fields.length → fields.head? ≠ some [])
    (hfree : ∀ f ∈ fields, c ∉ f) (hlen : ([c].intercalate fields).length < 2 ^ 31) :
    p.convertRowStringToRowFields ([c].intercalate fields) (CsvRow.ctor 0) =
      some (true, ⟨0, fields⟩) := by
  match fields, h2, hhead, hfree, hlen with
  | f0 :: f1 :: rest, _, hhead, hfree, hlen =>
    have hsplit : ([c].intercalate (f0 :: f1 :: rest)).splitOn c = f0 :: f1 :: rest :=
      List.splitOn_intercalate (f0 :: f1 :: rest) c hfree (by simp)
    rw [intercalate_cons_cons] at hlen hsplit ⊢
    have hline : f0 ++ [c] ++ [c].intercalate (f1 :: rest) =
        f0 ++ c :: [c].intercalate (f1 :: rest) := by simp
    rw [hline] at hlen hsplit ⊢
    have hf0 : c ∉ f0 := hfree f0 (List.mem_cons_self _ _)
    by_cases hne : f0 = []
    · subst hne
      cases rest with
      | nil =>
        rw [intercalate_single] at hlen ⊢
        have hf1 : c ∉ f1 := hfree f1 (by simp)
        rw [List.nil_append, convert_single_leading p c hfd f1 hf1 hlen (CsvRow.ctor 0)]
        simp [CsvRow.ctor]
      | cons g rest2 =>
        exact absurd rfl (hhead (by simp))
    · rw [convert_single_split p c hfd f0 _ hf0 hne hlen (CsvRow.ctor 0), hsplit]
      simp [CsvRow.ctor]

/-- A table whose text is shorter than 2 ^ 31 characters has sizes that fit `std::size_t`. -/
theorem fitsSizeT_of_short_text (c d : Char) (t : CsvTable)
    (hlen : (csvText [c] [d] t.fields).length < 2 ^ 31) : t.fitsSizeT := by
  unfold csvText at hlen
  constructor
  · have := length_le_fileOfLines d (t.fields.map (fun fields => [c].intercalate fields))
    rw [List.length_map] at this
    simp only [CsvTable.fields, List.length_map] at this hlen
    omega
  · intro r hr
    have h1 := length_le_intercalate_single c r.m_rowData
    have h2 := length_le_fileOfLines_of_mem [d]
      (t.fields.map (fun fields => [c].intercalate fields)) ([c].intercalate r.m_rowData)
      (by
        simp only [CsvTable.fields, List.map_map, List.mem_map]
        exact ⟨r, hr, rfl⟩)
    omega

/-- Claim C1, as stated, fails.  In the table with the rows `a`, `b`; no field; `c`, `d` no
field holds the delimiter `;` or the newline and the last row is not empty, yet the file
written by `createCsvFile` is read back by `readCsvFile` as the single row `a`, `b`: the empty
line of the second row ends the parse. -/
theorem createCsvFile_readCsvFile_round_trip_counterexample :
    (∀ r ∈ CsvTable.m_rows ⟨0, [⟨0, ["a".toList, "b".toList]⟩, ⟨0, []⟩,
        ⟨0, ["c".toList, "d".toList]⟩]⟩,
      ∀ f ∈ r.m_rowData, strFind f defaultParser.m_fieldDelimiter 0 = npos ∧
        strFind f defaultParser.m_rowDelimiter 0 = npos) ∧
    (CsvTable.m_rows ⟨0, [⟨0, ["a".toList, "b".toList]⟩, ⟨0, []⟩,
        ⟨0, ["c".toList, "d".toList]⟩]⟩).getLast? = some ⟨0, ["c".toList, "d".toList]⟩ ∧
    defaultParser.createCsvFile noFault emptyFs "t.csv".toList
        ⟨0, [⟨0, ["a".toList, "b".toList]⟩, ⟨0, []⟩, ⟨0, ["c".toList, "d".toList]⟩]⟩ =
      some (true, emptyFs.write "t.csv".toList "a;b\n\nc;d\n".toList) ∧
    defaultParser.readCsvFile (emptyFs.write "t.csv".toList "a;b\n\nc;d\n".toList)
        "t.csv".toList (CsvTable.ctor 0) =
      some (false, ⟨0, [⟨0, ["a".toList, "b".toList]⟩]⟩) ∧
    CsvTable.fields ⟨0, [⟨0, ["a".toList, "b".toList]⟩]⟩ ≠
      CsvTable.fields ⟨0, [⟨0, ["a".toList, "b".toList]⟩, ⟨0, []⟩,
        ⟨0, ["c".toList, "d".toList]⟩]⟩ := by
  refine ⟨by decide, by decide, ?_, by decide, by decide⟩
  rw [createCsvFile_ok defaultParser noFault emptyFs "t.csv".toList _ (fun _ => rfl)
    ⟨by decide, by decide⟩]
  rfl

/-- Claim C6.  When no stream operation fails and the sizes of the table fit `std::size_t`,
`createCsvFile` returns `true` and the file holds exactly the concatenation, over the rows in
order, of the fields of the row joined by the field delimiter (none after the last field)
followed by the row delimiter. -/
theorem createCsvFile_writes_rows_in_order (p : CsvParser) (dev : Nat → Bool)
    (fs : FileSystem) (fileName : Str) (t : CsvTable) (hdev : ∀ k, dev k = false)
    (hfit : t.fitsSizeT) :
    p.createCsvFile dev fs fileName t =
      some (true, fs.write fileName
        (t.fields.map
          (fun fields => p.m_fieldDelimiter.intercalate fields ++ p.m_rowDelimiter)).flatten) := by
  rw [createCsvFile_ok p dev fs fileName t hdev hfit, csvText_eq_join]

/-- Claim C6 at the table with the rows `a`, `b`; no field; `c`, and at the table without
rows. -/
theorem createCsvFile_writes_rows_in_order_witness :
    ((∀ k, noFault k = false) ∧
      CsvTable.fitsSizeT ⟨0, [⟨0, ["a".toList, "b".toList]⟩, ⟨0, []⟩, ⟨0, ["c".toList]⟩]⟩) ∧
    defaultParser.createCsvFile noFault emptyFs "t.csv".toList
        ⟨0, [⟨0, ["a".toList, "b".toList]⟩, ⟨0, []⟩, ⟨0, ["c".toList]⟩]⟩ =
      some (true, emptyFs.write "t.csv".toList "a;b\n\nc\n".toList) ∧
    defaultParser.createCsvFile noFault emptyFs "t.csv".toList (CsvTable.ctor 0) =
      some (true, emptyFs.write "t.csv".toList []) :=
  ⟨⟨fun _ => rfl, ⟨by decide, by decide⟩⟩,
    (createCsvFile_writes_rows_in_order defaultParser noFault emptyFs "t.csv".toList
      ⟨0, [⟨0, ["a".toList, "b".toList]⟩, ⟨0, []⟩, ⟨0, ["c".toList]⟩]⟩ (fun _ => rfl)
      ⟨by decide, by decide⟩).trans rfl,
    (createCsvFile_writes_rows_in_order defaultParser noFault emptyFs "t.csv".toList
      (CsvTable.ctor 0) (fun _ => rfl) ⟨by decide, by decide⟩).trans rfl⟩

theorem removeField_past_end (r : CsvRow) (idx : Nat) (h0 : 0 < r.m_rowData.length)
    (hsize : r.m_rowData.length < 2 ^ 64) (h : r.m_rowData.length ≤ idx) :
    r.removeField idx = some (false, r) := by
  unfold CsvRow.removeField
  rw [sizeSubOne_pos h0 hsize, if_pos (by omega)]

theorem removeRow_past_end (t : CsvTable) (idx : Nat) (h0 : 0 < t.m_rows.length)
    (hsize : t.m_rows.length < 2 ^ 64) (h : t.m_rows.length ≤ idx) :
    t.removeRow idx = some (false, t) := by
  unfold CsvTable.removeRow
  rw [sizeSubOne_pos h0 hsize, if_pos (by omega)]

/-- Claim C9.  What the code does on a row without fields: for the index 0 the test
`idx > m_rowData.size() - 1` is false, because `size() - 1` wraps around to the largest
`std::size_t`, and `getField` reads `m_rowData[0]` outside the vector instead of returning
`false`. -/
theorem getField_on_row_without_fields (rowSize : Nat) (field : Str) :
    sizeSubOne (CsvRow.getNumOfFields ⟨rowSize, []⟩) = 2 ^ 64 - 1 ∧
    CsvRow.getField ⟨rowSize, []⟩ 0 field = none ∧
    CsvRow.getField ⟨rowSize, []⟩ 0 field ≠ some (false, field) := by
  refine ⟨sizeSubOne_zero, ?_, ?_⟩
  · exact getField_no_fields rowSize 0 field (by decide)
  · rw [getField_no_fields rowSize 0 field (by decide)]
    simp

/-- Claim C10.  What the code does on a row without fields and on a table without rows: for
the index 0 the test `idx > size() - 1` is false, because `size() - 1` wraps around, and
`removeField` and `removeRow` call `erase` on an iterator outside the vector instead of
returning `false`. -/
theorem removeField_removeRow_on_empty (size : Nat) :
    CsvRow.removeField ⟨size, []⟩ 0 = none ∧ CsvTable.removeRow ⟨size, []⟩ 0 = none := by
  constructor
  · unfold CsvRow.removeField
    simp only [List.length_nil, sizeSubOne_zero]
    rw [if_neg (by omega), if_neg (by omega)]
  · unfold CsvTable.removeRow
    simp only [List.length_nil, sizeSubOne_zero]
    rw [if_neg (by omega), if_neg (by omega)]

/-! ## Rows and tables: adding, removing, constructing -/

/-- Claim C12.  `addField` returns `true`, the number of fields grows by exactly one, the
given text is stored at the index that was the number of fields, and every field stored before
stays at its index. -/
theorem addField_appends (r : CsvRow) (data : Str) :
    (r.addField data).1 = true ∧
    (r.addField data).2.getNumOfFields = r.getNumOfFields + 1 ∧
    (r.addField data).2.m_rowData[r.getNumOfFields]? = some data ∧
    ∀ i, i < r.getNumOfFields → (r.addField data).2.m_rowData[i]? = r.m_rowData[i]? := by
  refine ⟨rfl, ?_, ?_, ?_⟩
  · simp [CsvRow.addField, CsvRow.getNumOfFields]
  · simp [CsvRow.addField, CsvRow.getNumOfFields]
  · intro i hi
    simp only [CsvRow.getNumOfFields] at hi
    simp [CsvRow.addField, List.getElem?_append_left hi]

/-- Claim C11.  For an index below the number of fields (a number that fits `std::size_t`),
`removeField` returns `true`, the number of fields shrinks by exactly one, the fields before
the index stay where they are and every field behind the index moves down by one position. -/
theorem removeField_in_range (r : CsvRow) (idx : Nat) (h : idx < r.getNumOfFields)
    (hsize : r.getNumOfFields < 2 ^ 64) :
    ∃ r1, r.removeField idx = some (true, r1) ∧
      r1.getNumOfFields = r.getNumOfFields - 1 ∧
      (∀ i, i < idx → r1.m_rowData[i]? = r.m_rowData[i]?) ∧
      (∀ i, idx ≤ i → r1.m_rowData[i]? = r.m_rowData[i + 1]?) := by
  simp only [CsvRow.getNumOfFields] at h hsize
  refine ⟨{ r with m_rowData := r.m_rowData.eraseIdx idx }, ?_, ?_, ?_, ?_⟩
  · unfold CsvRow.removeField
    rw [sizeSubOne_pos (by omega) hsize, if_neg (by omega), if_pos h]
  · simp [CsvRow.getNumOfFields, List.length_eraseIdx, h]
  · intro i hi
    simp [List.getElem?_eraseIdx, hi]
  · intro i hi
    simp only [List.getElem?_eraseIdx]
    rw [if_neg (by omega)]

/-- Claim C11 at the row `a`, `b`, `c` and the index 1. -/
theorem removeField_in_range_witness :
    (1 < CsvRow.getNumOfFields ⟨0, ["a".toList, "b".toList, "c".toList]⟩ ∧
      CsvRow.getNumOfFields ⟨0, ["a".toList, "b".toList, "c".toList]⟩ < 2 ^ 64) ∧
    ∃ r1, CsvRow.removeField ⟨0, ["a".toList, "b".toList, "c".toList]⟩ 1 = some (true, r1) ∧
      r1.getNumOfFields = CsvRow.getNumOfFields ⟨0, ["a".toList, "b".toList, "c".toList]⟩ - 1 ∧
      (∀ i, i < 1 → r1.m_rowData[i]? =
        (CsvRow.m_rowData ⟨0, ["a".toList, "b".toList, "c".toList]⟩)[i]?) ∧
      (∀ i, 1 ≤ i → r1.m_rowData[i]? =
        (CsvRow.m_rowData ⟨0, ["a".toList, "b".toList, "c".toList]⟩)[i + 1]?) :=
  ⟨⟨by decide, by decide⟩,
    removeField_in_range ⟨0, ["a".toList, "b".toList, "c".toList]⟩ 1 (by decide) (by decide)⟩

/-- After `addRow(row)` on a table whose number of rows fits `std::size_t`, `getRow` at the
index of the new row returns `true` and the row that was added, whatever the output row
held. -/
theorem getRow_after_addRow (t : CsvTable) (row out : CsvRow)
    (hsize : t.getRowNumbers + 1 < 2 ^ 64) :
    (t.addRow row).1 = true ∧
    (t.addRow row).2.getRow t.getRowNumbers out = some (true, row) := by
  simp only [CsvTable.getRowNumbers] at hsize
  have hlen : (t.addRow row).2.m_rows.length = t.m_rows.length + 1 := by
    simp [CsvTable.addRow]
  refine ⟨rfl, ?_⟩
  rw [getRow_in_range (t.addRow row).2 t.getRowNumbers out
    (by rw [hlen]; simp [CsvTable.getRowNumbers]) (by rw [hlen]; exact hsize)]
  simp [CsvTable.addRow, CsvTable.getRowNumbers]

/-- Claim C17.  A row constructed with the size `n` has exactly `n` fields and `getField`
gives the empty text at every index below `n`; the size is not enforced: `addField` on it
returns `true`, gives `n + 1` fields and `getField` finds the new field at the index `n`.  A
table constructed with `n` rows has exactly `n` rows, each without fields; `addRow` on it
returns `true`, gives `n + 1` rows and `getRow` finds the new row at the index `n`. -/
theorem constructed_size_is_initial_only (n : Nat) (hn : n + 1 < 2 ^ 64) (data out : Str)
    (row outRow : CsvRow) :
    ((CsvRow.ctor n).getNumOfFields = n ∧
      (∀ i, i < n → (CsvRow.ctor n).getField i out = some (true, [])) ∧
      ((CsvRow.ctor n).addField data).1 = true ∧
      ((CsvRow.ctor n).addField data).2.getNumOfFields = n + 1 ∧
      ((CsvRow.ctor n).addField data).2.getField n out = some (true, data)) ∧
    ((CsvTable.ctor n).getRowNumbers = n ∧
      (∀ i, i < n → (CsvTable.ctor n).getRow i outRow = some (true, CsvRow.ctor 0)) ∧
      (CsvRow.ctor 0).getNumOfFields = 0 ∧
      ((CsvTable.ctor n).addRow row).1 = true ∧
      ((CsvTable.ctor n).addRow row).2.getRowNumbers = n + 1 ∧
      ((CsvTable.ctor n).addRow row).2.getRow n outRow = some (true, row)) := by
  have hrow : (CsvRow.ctor n).m_rowData.length = n := by simp [CsvRow.ctor]
  have hrow1 : ((CsvRow.ctor n).addField data).2.m_rowData.length = n + 1 := by
    simp [CsvRow.ctor, CsvRow.addField]
  have htab : (CsvTable.ctor n).m_rows.length = n := by simp [CsvTable.ctor]
  have htab1 : ((CsvTable.ctor n).addRow row).2.m_rows.length = n + 1 := by
    simp [CsvTable.ctor, CsvTable.addRow]
  refine ⟨⟨hrow, ?_, rfl, hrow1, ?_⟩, ⟨htab, ?_, rfl, rfl, htab1, ?_⟩⟩
  · intro i hi
    rw [getField_in_range (CsvRow.ctor n) i out (by rw [hrow]; exact hi)
      (by rw [hrow]; omega)]
    simp [CsvRow.ctor]
  · rw [getField_in_range ((CsvRow.ctor n).addField data).2 n out (by rw [hrow1]; omega)
      (by rw [hrow1]; exact hn)]
    simp [CsvRow.ctor, CsvRow.addField]
  · intro i hi
    rw [getRow_in_range (CsvTable.ctor n) i outRow (by rw [htab]; exact hi)
      (by rw [htab]; omega)]
    simp [CsvTable.ctor]
  · rw [getRow_in_range ((CsvTable.ctor n).addRow row).2 n outRow (by rw [htab1]; omega)
      (by rw [htab1]; exact hn)]
    simp [CsvTable.ctor, CsvTable.addRow]

/-- Claim C17 at the size 2: the row and the table constructed with it, and what `addField`
and `addRow` make of them. -/
theorem constructed_size_is_initial_only_witness :
    2 + 1 < 2 ^ 64 ∧
    (CsvRow.ctor 2).getNumOfFields = 2 ∧
    ((CsvRow.ctor 2).addField "x".toList).2.getField 2 [] = some (true, "x".toList) ∧
    (CsvTable.ctor 2).getRowNumbers = 2 ∧
    ((CsvTable.ctor 2).addRow ⟨0, ["x".toList]⟩).2.getRow 2 (CsvRow.ctor 0) =
      some (true, ⟨0, ["x".toList]⟩) :=
  ⟨by decide,
    (constructed_size_is_initial_only 2 (by decide) "x".toList [] ⟨0, ["x".toList]⟩
      (CsvRow.ctor 0)).1.1,
    (constructed_size_is_initial_only 2 (by decide) "x".toList [] ⟨0, ["x".toList]⟩
      (CsvRow.ctor 0)).1.2.2.2.2,
    (constructed_size_is_initial_only 2 (by decide) "x".toList [] ⟨0, ["x".toList]⟩
      (CsvRow.ctor 0)).2.1,
    (constructed_size_is_initial_only 2 (by decide) "x".toList [] ⟨0, ["x".toList]⟩
      (CsvRow.ctor 0)).2.2.2.2.2.2⟩

/-! ## The row loop: one pass, progress, truncation at an empty line -/

/-- The row loop is the repetition of its body. -/
theorem readLoop_eq_readBody (p : CsvParser) (fuel : Nat) (buffer : Str) (t : CsvTable) :
    readLoop p (fuel + 1) buffer t =
      match readBody p buffer t with
      | none => none
      | some (Sum.inl r) => some r
      | some (Sum.inr (buffer1, t1)) => readLoop p fuel buffer1 t1 := by
  rw [readLoop]
  unfold readBody
  simp only
  generalize (if strFind buffer p.m_rowDelimiter 0 = npos then buffer.take buffer.length
    else buffer.take (strFind buffer p.m_rowDelimiter 0)) = csvLine
  generalize (if strFind buffer p.m_rowDelimiter 0 = npos then buffer.drop buffer.length
    else buffer.drop (strFind buffer p.m_rowDelimiter 0 + p.m_rowDelimiter.length)) = rest
  by_cases hline : csvLine.isEmpty = true
  · rw [if_pos hline, if_pos hline]
  · rw [if_neg hline, if_neg hline]
    cases p.convertRowStringToRowFields csvLine (CsvRow.ctor 0) with
    | none => rfl
    | some x =>
      obtain ⟨b, r⟩ := x
      cases b <;> rfl

/-- A pass through the body that does not return leaves a shorter buffer. -/
theorem readBody_shortens (p : CsvParser) (buffer : Str) (t : CsvTable) (buffer1 : Str)
    (t1 : CsvTable) (h : readBody p buffer t = some (Sum.inr (buffer1, t1))) :
    buffer1.length < buffer.length := by
  unfold readBody at h
  simp only at h
  generalize hcl : (if strFind buffer p.m_rowDelimiter 0 = npos then
      buffer.take buffer.length
    else buffer.take (strFind buffer p.m_rowDelimiter 0)) = csvLine at h
  generalize hrs : (if strFind buffer p.m_rowDelimiter 0 = npos then
      buffer.drop buffer.length
    else buffer.drop (strFind buffer p.m_rowDelimiter 0 + p.m_rowDelimiter.length)) = rest at h
  by_cases hline : csvLine.isEmpty = true
  · rw [if_pos hline] at h
    simp at h
  · rw [if_neg hline] at h
    have hb : buffer1 = rest := by
      cases hc : p.convertRowStringToRowFields csvLine (CsvRow.ctor 0) with
      | none => rw [hc] at h; simp at h
      | some x =>
        obtain ⟨b, r⟩ := x
        rw [hc] at h
        cases b <;> simp at h <;> exact h.1.symm
    have hpos : 0 < csvLine.length := by
      apply List.length_pos.mpr
      intro hnil
      rw [hnil] at hline
      simp at hline
    rw [hb, ← hrs]
    rw [← hcl] at hpos
    by_cases hnp : strFind buffer p.m_rowDelimiter 0 = npos
    · rw [if_pos hnp] at hpos ⊢
      simp only [List.take_length, List.drop_length, List.length_nil] at hpos ⊢
      exact hpos
    · rw [if_neg hnp] at hpos ⊢
      simp only [List.length_take, List.length_drop] at hpos ⊢
      omega

/-- A pass through the body on a buffer shorter than 2 ^ 31 characters has a result. -/
theorem readBody_defined (p : CsvParser) (buffer : Str) (t : CsvTable)
    (hlen : buffer.length < 2 ^ 31) : ∃ r, readBody p buffer t = some r := by
  unfold readBody
  simp only
  have hcl : (if strFind buffer p.m_rowDelimiter 0 = npos then buffer.take buffer.length
      else buffer.take (strFind buffer p.m_rowDelimiter 0)).length < 2 ^ 31 := by
    split
    · simp only [List.take_length]; exact hlen
    · simp only [List.length_take]; omega
  generalize (if strFind buffer p.m_rowDelimiter 0 = npos then buffer.take buffer.length
    else buffer.take (strFind buffer p.m_rowDelimiter 0)) = csvLine at hcl
  by_cases hline : csvLine.isEmpty = true
  · rw [if_pos hline]
    exact ⟨_, rfl⟩
  · rw [if_neg hline]
    obtain ⟨r, hr⟩ := convert_terminates p csvLine hcl (CsvRow.ctor 0)
    rw [hr]
    exact ⟨_, rfl⟩

/-- More iterations than needed do not change the result of the row loop. -/
theorem readLoop_fuel_mono (p : CsvParser) : ∀ (fuel : Nat) (buffer : Str) (t : CsvTable)
    (r : Bool × CsvTable), readLoop p fuel buffer t = some r →
    ∀ k, readLoop p (fuel + k) buffer t = some r := by
  intro fuel
  induction fuel with
  | zero =>
    intro buffer t r h
    simp [readLoop] at h
  | succ n ih =>
    intro buffer t r h k
    have hk : n + 1 + k = (n + k) + 1 := by omega
    rw [hk, readLoop_eq_readBody]
    rw [readLoop_eq_readBody] at h
    cases hb : readBody p buffer t with
    | none => rw [hb] at h; simp at h
    | some x =>
      rw [hb] at h
      cases x with
      | inl r0 => simpa using h
      | inr st =>
        obtain ⟨b1, t1⟩ := st
        simp only at h ⊢
        exact ih b1 t1 r h k

/-- Terminated non-empty lines are read the same way whatever follows them, as long as what
follows ends the loop at once. -/
theorem readLoop_lines_then_stop (p : CsvParser) (d : Char) (hrd : p.m_rowDelimiter = [d])
    (tail1 tail2 : Str)
    (hstop1 : ∀ k t0, readLoop p (k + 1) tail1 t0 = some (false, t0))
    (hstop2 : ∀ k t0, readLoop p (k + 1) tail2 t0 = some (false, t0)) :
    ∀ (lines : List Str) (fuel1 fuel2 : Nat) (t : CsvTable),
      (∀ l ∈ lines, l ≠ [] ∧ d ∉ l) → (fileOfLines [d] lines).length < 2 ^ 31 →
      lines.length + 1 ≤ fuel1 → lines.length + 1 ≤ fuel2 →
      readLoop p fuel1 (fileOfLines [d] lines ++ tail1) t =
        readLoop p fuel2 (fileOfLines [d] lines ++ tail2) t := by
  intro lines
  induction lines with
  | nil =>
    intro fuel1 fuel2 t _ _ hf1 hf2
    obtain ⟨k1, rfl⟩ : ∃ k, fuel1 = k + 1 := ⟨fuel1 - 1, by simp at hf1; omega⟩
    obtain ⟨k2, rfl⟩ : ∃ k, fuel2 = k + 1 := ⟨fuel2 - 1, by simp at hf2; omega⟩
    simp only [fileOfLines, List.nil_append]
    rw [hstop1, hstop2]
  | cons l ls ih =>
    intro fuel1 fuel2 t hlines hlen hf1 hf2
    obtain ⟨k1, rfl⟩ : ∃ k, fuel1 = k + 1 := ⟨fuel1 - 1, by simp at hf1; omega⟩
    obtain ⟨k2, rfl⟩ : ∃ k, fuel2 = k + 1 := ⟨fuel2 - 1, by simp at hf2; omega⟩
    have hl := hlines l (List.mem_cons_self _ _)
    have htext : ∀ tail : Str, fileOfLines [d] (l :: ls) ++ tail =
        l ++ d :: (fileOfLines [d] ls ++ tail) := by
      intro tail
      simp [fileOfLines]
    have hlen1 : l.length + (fileOfLines [d] ls).length + 1 < 2 ^ 31 := by
      simp only [fileOfLines, List.length_append, List.length_cons, List.length_nil] at hlen
      omega
    obtain ⟨r, hr⟩ := convert_terminates p l (by omega) (CsvRow.ctor 0)
    rw [htext, htext, readLoop_line p d hrd k1 l _ hl.1 hl.2 (by omega) t r hr,
      readLoop_line p d hrd k2 l _ hl.1 hl.2 (by omega) t r hr]
    exact ih k1 k2 _ (fun x hx => hlines x (List.mem_cons_of_mem _ hx)) (by omega)
      (by simp only [List.length_cons] at hf1; omega)
      (by simp only [List.length_cons] at hf2; omega)

/-- Claim C14.  With a single-character row delimiter `d` and a prefix `l₁ d … lₖ d` of
non-empty lines free of `d`, shorter than 2 ^ 31 characters, a file that continues after the
prefix with an empty line (`d`) and any further text is read into exactly the table that the
prefix alone is read into: the `k` rows of the prefix are appended and no row behind the empty
line is. -/
theorem readCsvFile_truncates_at_empty_line (p : CsvParser) (d : Char) (lines : List Str)
    (rest : Str) (fs1 fs2 : FileSystem) (fileName : Str) (t : CsvTable)
    (hrd : p.m_rowDelimiter = [d]) (hlines : ∀ l ∈ lines, l ≠ [] ∧ d ∉ l)
    (hlen : (fileOfLines [d] lines).length < 2 ^ 31)
    (hfile1 : fs1 fileName = some (fileOfLines [d] lines ++ d :: rest))
    (hfile2 : fs2 fileName = some (fileOfLines [d] lines)) :
    p.readCsvFile fs1 fileName t = p.readCsvFile fs2 fileName t ∧
    ∃ b t1, p.readCsvFile fs1 fileName t = some (b, t1) ∧
      t1.getRowNumbers = t.getRowNumbers + lines.length ∧
      t1.m_rows.take t.getRowNumbers = t.m_rows := by
  have hcount := length_le_fileOfLines d lines
  have heq : p.readCsvFile fs1 fileName t = p.readCsvFile fs2 fileName t := by
    unfold CsvParser.readCsvFile
    rw [hfile1, hfile2]
    have h := readLoop_lines_then_stop p d hrd (d :: rest) []
      (fun k t0 => readLoop_empty_line p d hrd k rest t0)
      (fun k t0 => readLoop_nil p k t0) lines
      ((fileOfLines [d] lines ++ d :: rest).length + 1) ((fileOfLines [d] lines).length + 1)
      t hlines hlen (by simp only [List.length_append]; omega) (by omega)
    rw [List.append_nil] at h
    exact h
  refine ⟨heq, ?_⟩
  rw [heq]
  unfold CsvParser.readCsvFile
  rw [hfile2]
  obtain ⟨rows, hrows, hall⟩ := readLoop_fileOfLines p d hrd lines
    ((fileOfLines [d] lines).length + 1) t hlines hlen (by omega)
  refine ⟨false, _, hrows, ?_, ?_⟩
  · simp [CsvTable.getRowNumbers, hall.length_eq]
  · simp [CsvTable.getRowNumbers]

/-- Claim C14 at the prefix `a;b` with its newline, followed by an empty line and the line
`c;d`. -/
theorem readCsvFile_truncates_at_empty_line_witness :
    defaultParser.readCsvFile (emptyFs.write "t.csv".toList "a;b\n\nc;d\n".toList)
        "t.csv".toList (CsvTable.ctor 0) =
      defaultParser.readCsvFile (emptyFs.write "t.csv".toList "a;b\n".toList)
        "t.csv".toList (CsvTable.ctor 0) :=
  (readCsvFile_truncates_at_empty_line defaultParser '\n' ["a;b".toList] "c;d\n".toList
    (emptyFs.write "t.csv".toList "a;b\n\nc;d\n".toList)
    (emptyFs.write "t.csv".toList "a;b\n".toList) "t.csv".toList (CsvTable.ctor 0)
    rfl (by decide) (by decide) (by decide) (by decide)).1

/-- Claim C15.  The row loop of `readCsvFile` ends for every content shorter than 2 ^ 31
characters and every row delimiter, the empty one included: the loop is the repetition of its
body, every pass through the body has a result, a pass that does not return leaves a strictly
shorter buffer, and with one iteration more than the content has characters, or any larger
number, the loop returns one and the same result. -/
theorem readCsvFile_row_loop_terminates (p : CsvParser) (content : Str) (t : CsvTable)
    (hlen : content.length < 2 ^ 31) :
    (∃ r, ∀ fuel, content.length + 1 ≤ fuel → readLoop p fuel content t = some r) ∧
    (∀ (fs : FileSystem) (fileName : Str), fs fileName = some content →
      ∃ r, p.readCsvFile fs fileName t = some r) ∧
    (∀ (fuel : Nat) (buffer : Str) (t0 : CsvTable),
      readLoop p (fuel + 1) buffer t0 =
        match readBody p buffer t0 with
        | none => none
        | some (Sum.inl r) => some r
        | some (Sum.inr (buffer1, t1)) => readLoop p fuel buffer1 t1) ∧
    (∀ (buffer : Str) (t0 : CsvTable), buffer.length ≤ content.length →
      ∃ r, readBody p buffer t0 = some r) ∧
    (∀ (buffer : Str) (t0 : CsvTable) (buffer1 : Str) (t1 : CsvTable),
      readBody p buffer t0 = some (Sum.inr (buffer1, t1)) → buffer1.length < buffer.length) := by
  obtain ⟨t1, ht1⟩ := readLoop_returns_false p (content.length + 1) content t hlen
    (Nat.le_refl _)
  refine ⟨⟨(false, t1), ?_⟩, ?_, ?_, ?_, ?_⟩
  · intro fuel hfuel
    have := readLoop_fuel_mono p (content.length + 1) content t (false, t1) ht1
      (fuel - (content.length + 1))
    rwa [Nat.add_sub_cancel' hfuel] at this
  · intro fs fileName hfile
    refine ⟨(false, t1), ?_⟩
    unfold CsvParser.readCsvFile
    rw [hfile]
    exact ht1
  · exact fun fuel buffer t0 => readLoop_eq_readBody p fuel buffer t0
  · exact fun buffer t0 hb => readBody_defined p buffer t0 (by omega)
  · exact fun buffer t0 buffer1 t1 h => readBody_shortens p buffer t0 buffer1 t1 h

/-- Claim C15 at a content without final row delimiter, read with the empty row delimiter. -/
theorem readCsvFile_row_loop_terminates_witness :
    "a;b\nc;d".toList.length < 2 ^ 31 ∧
    ∃ r, (CsvParser.ctor [';'] []).readCsvFile (emptyFs.write "t.csv".toList "a;b\nc;d".toList)
      "t.csv".toList (CsvTable.ctor 0) = some r :=
  ⟨by decide,
    (readCsvFile_row_loop_terminates (CsvParser.ctor [';'] []) "a;b\nc;d".toList
      (CsvTable.ctor 0) (by decide)).2.1 (emptyFs.write "t.csv".toList "a;b\nc;d".toList)
      "t.csv".toList rfl⟩

/-! ## The splitting loop: termination and the number of fields -/

/-- More iterations than needed do not change the result of the splitting loop. -/
theorem convertLoop_fuel_mono (p : CsvParser) (line : Str) :
    ∀ (fuel : Nat) (last : Int) (first : Bool) (row r : CsvRow),
      convertLoop p line fuel last first row = some r →
      ∀ k, convertLoop p line (fuel + k) last first row = some r := by
  intro fuel
  induction fuel with
  | zero =>
    intro last first row r h
    simp [convertLoop] at h
  | succ n ih =>
    intro last first row r h k
    have hk : n + 1 + k = (n + k) + 1 := by omega
    rw [hk, convertLoop]
    rw [convertLoop] at h
    generalize (if first = true then
        toInt (strFind line p.m_fieldDelimiter (toSizeT last))
      else toInt (strFind line p.m_fieldDelimiter (toSizeT (last + 1)))) = next at h ⊢
    by_cases hnp : next = toInt npos
    · rw [if_pos hnp] at h ⊢
      exact h
    · rw [if_neg hnp] at h ⊢
      exact ih _ _ _ _ h k

/-- Claim C16.  The splitting loop of `convertRowStringToRowFields` ends for every line
shorter than 2 ^ 31 characters and every field delimiter, the empty line, the empty delimiter
and a line that starts with the delimiter included: with two iterations more than the line has
characters, or any larger number, the loop returns one and the same row; and every search
after the first either finds nothing, which ends the loop, or finds a position that is larger
than the last one and at most the length of the line. -/
theorem convertRowStringToRowFields_loop_terminates (p : CsvParser) (line : Str)
    (row : CsvRow) (hlen : line.length < 2 ^ 31) :
    (∃ r, ∀ fuel, line.length + 2 ≤ fuel → convertLoop p line fuel 0 true row = some r) ∧
    (∃ r, p.convertRowStringToRowFields line row = some (true, r)) ∧
    (∀ (fuel n : Nat) (row0 : CsvRow), n ≤ line.length →
      (strFind line p.m_fieldDelimiter (n + 1) = npos ∧
        ∃ r, convertLoop p line (fuel + 1) (n : Int) false row0 = some r) ∨
      (n < strFind line p.m_fieldDelimiter (n + 1) ∧
        strFind line p.m_fieldDelimiter (n + 1) ≤ line.length ∧
        ∃ row1, convertLoop p line (fuel + 1) (n : Int) false row0 =
          convertLoop p line fuel
            ((strFind line p.m_fieldDelimiter (n + 1) : Nat) : Int) false row1)) := by
  obtain ⟨r, hr⟩ := convertLoop_terminates p line hlen (line.length + 2) 0 true row
    (Nat.zero_le _) (by simp)
  have hr0 : convertLoop p line (line.length + 2) 0 true row = some r := by
    simpa using hr
  refine ⟨⟨r, ?_⟩, convert_terminates p line hlen row, ?_⟩
  · intro fuel hfuel
    have := convertLoop_fuel_mono p line (line.length + 2) 0 true row r hr0
      (fuel - (line.length + 2))
    rwa [Nat.add_sub_cancel' hfuel] at this
  · intro fuel n row0 hn
    have hstep := convertLoop_step p line hlen fuel n hn false row0
    simp only [Bool.false_eq_true, if_false] at hstep
    rcases strFind_cases line p.m_fieldDelimiter (n + 1) with h | ⟨h1, h2⟩
    · left
      rw [if_pos h] at hstep
      exact ⟨h, _, hstep⟩
    · right
      have hnp : strFind line p.m_fieldDelimiter (n + 1) ≠ npos := by
        unfold npos
        omega
      rw [if_neg hnp] at hstep
      exact ⟨by omega, h2, _, hstep⟩

/-- Claim C16 at the line `;b;c`, which starts with the delimiter. -/
theorem convertRowStringToRowFields_loop_terminates_witness :
    ";b;c".toList.length < 2 ^ 31 ∧
    ∃ r, defaultParser.convertRowStringToRowFields ";b;c".toList (CsvRow.ctor 0) =
      some (true, r) :=
  ⟨by decide,
    (convertRowStringToRowFields_loop_terminates defaultParser ";b;c".toList (CsvRow.ctor 0)
      (by decide)).2.1⟩

/-- From every state of the splitting loop with a single-character delimiter, the loop appends
one field more than the text still to be searched has delimiters. -/
theorem convertLoop_single_count (p : CsvParser) (c : Char) (hfd : p.m_fieldDelimiter = [c])
    (line : Str) (hlen : line.length < 2 ^ 31) :
    ∀ (fuel n : Nat) (first : Bool) (row : CsvRow), n ≤ line.length →
      (line.drop (if first then n else n + 1)).length + 1 ≤ fuel →
      ∃ fields, convertLoop p line fuel (n : Int) first row =
          some ⟨row.m_rowSize, row.m_rowData ++ fields⟩ ∧
        fields.length = (line.drop (if first then n else n + 1)).count c + 1 := by
  intro fuel
  induction fuel with
  | zero =>
    intro n first row _ hf
    omega
  | succ k ih =>
    intro n first row hn hf
    rw [convertLoop_step p line hlen k n hn first row, hfd]
    generalize hpos : (if first then n else n + 1) = pos at hf ⊢
    rcases split_at_first c (line.drop pos) with hs | ⟨a, b, hab, ha⟩
    · rw [strFind_single_none c line pos hs, if_pos rfl]
      refine ⟨[line.drop (n + 1)], ?_, ?_⟩
      · simp [CsvRow.addField]
      · simp [List.count_eq_zero_of_not_mem hs]
    · have hposlt : pos < line.length := by
        have h1 : (line.drop pos).length = a.length + (b.length + 1) := by
          rw [hab]
          simp
        simp only [List.length_drop] at h1
        omega
      have hfind : strFind line [c] pos = pos + a.length := by
        have h1 := strFind_single_first c (line.take pos) a b ha
        rw [List.append_assoc, ← hab, List.take_append_drop, List.length_take,
          Nat.min_eq_left (Nat.le_of_lt hposlt)] at h1
        exact h1
      have halen : pos + a.length + 1 + b.length = line.length := by
        have h1 : (line.drop pos).length = a.length + (b.length + 1) := by
          rw [hab]
          simp
        simp only [List.length_drop] at h1
        omega
      have hdrop : line.drop (pos + a.length + 1) = b := by
        have h1 : line.drop (pos + a.length + 1) = (line.drop pos).drop (a.length + 1) := by
          rw [List.drop_drop]
          congr 1
        rw [h1, hab]
        simp
      rw [hfind, if_neg (by unfold npos; omega)]
      obtain ⟨fields, hrec, hcount⟩ := ih (pos + a.length) false
        (row.addField (if n = 0 then line.take (pos + a.length)
          else (line.drop (n + 1)).take (pos + a.length - (n + 1)))).2 (by omega)
        (by
          simp only [Bool.false_eq_true, if_false]
          rw [hdrop]
          rw [hab] at hf
          simp only [List.length_append, List.length_cons] at hf
          omega)
      simp only [Bool.false_eq_true, if_false] at hrec hcount
      rw [hdrop] at hcount
      refine ⟨(if n = 0 then line.take (pos + a.length)
          else (line.drop (n + 1)).take (pos + a.length - (n + 1))) :: fields, ?_, ?_⟩
      · rw [hrec]
        simp [CsvRow.addField]
      · rw [hab, List.length_cons, hcount, List.count_append, List.count_cons_self,
          List.count_eq_zero_of_not_mem ha]
        omega

/-- Claim C19.  With a single-character field delimiter `c`, every line shorter than 2 ^ 31
characters, the empty line and the lines that start with `c` included, is converted into
exactly one field more than the line has occurrences of `c`, so into at least one field, and
the fields that the row held already stay unchanged in front of the new ones. -/
theorem convertRowStringToRowFields_field_count (p : CsvParser) (c : Char) (line : Str)
    (row : CsvRow) (hfd : p.m_fieldDelimiter = [c]) (hlen : line.length < 2 ^ 31) :
    (∃ fields, p.convertRowStringToRowFields line row =
        some (true, ⟨row.m_rowSize, row.m_rowData ++ fields⟩) ∧
      fields.length = line.count c + 1) ∧
    (∃ r, p.convertRowStringToRowFields line (CsvRow.ctor 0) = some (true, r) ∧
      r.getNumOfFields = line.count c + 1 ∧ 1 ≤ r.getNumOfFields) := by
  have hgen : ∀ row0 : CsvRow, ∃ fields, p.convertRowStringToRowFields line row0 =
        some (true, ⟨row0.m_rowSize, row0.m_rowData ++ fields⟩) ∧
      fields.length = line.count c + 1 := by
    intro row0
    obtain ⟨fields, hloop, hcount⟩ := convertLoop_single_count p c hfd line hlen
      (line.length + 2) 0 true row0 (Nat.zero_le _) (by simp)
    refine ⟨fields, ?_, by simpa using hcount⟩
    unfold CsvParser.convertRowStringToRowFields
    have h0 : convertLoop p line (line.length + 2) 0 true row0 =
        some ⟨row0.m_rowSize, row0.m_rowData ++ fields⟩ := by
      simpa using hloop
    rw [h0]
    rfl
  refine ⟨hgen row, ?_⟩
  obtain ⟨fields, hconv, hcount⟩ := hgen (CsvRow.ctor 0)
  refine ⟨_, hconv, ?_, ?_⟩
  · simp [CsvRow.getNumOfFields, CsvRow.ctor, hcount]
  · simp [CsvRow.getNumOfFields, CsvRow.ctor, hcount]

/-- Claim C19 at the line `;b;c` and a row that holds the field `x` already. -/
theorem convertRowStringToRowFields_field_count_witness :
    (defaultParser.m_fieldDelimiter = [';'] ∧ ";b;c".toList.length < 2 ^ 31) ∧
    ∃ fields, defaultParser.convertRowStringToRowFields ";b;c".toList ⟨0, ["x".toList]⟩ =
        some (true, ⟨0, ["x".toList] ++ fields⟩) ∧
      fields.length = ";b;c".toList.count ';' + 1 :=
  ⟨⟨rfl, by decide⟩,
    (convertRowStringToRowFields_field_count defaultParser ';' ";b;c".toList
      ⟨0, ["x".toList]⟩ rfl (by decide)).1⟩

/-! ## std::string::find with a delimiter of any length -/

theorem findAux_first_occurrence (pat : Str) : ∀ (k : Nat) (s : Str) (i : Nat),
    k ≤ s.length → (∀ j, j < k → pat.isPrefixOf (s.drop j) = false) →
    pat.isPrefixOf (s.drop k) = true → findAux pat s i = some (i + k) := by
  intro k
  induction k with
  | zero =>
    intro s i _ _ hk
    cases s with
    | nil =>
      have hp : pat = [] := by
        cases pat with
        | nil => rfl
        | cons x xs => simp [List.isPrefixOf] at hk
      simp [findAux, hp]
    | cons x xs =>
      simp only [List.drop_zero] at hk
      simp [findAux, hk]
  | succ k ih =>
    intro s i hlen hbefore hk
    cases s with
    | nil => simp at hlen
    | cons x xs =>
      have h0 := hbefore 0 (Nat.succ_pos _)
      simp only [List.drop_zero] at h0
      simp only [findAux, h0, Bool.false_eq_true, if_false]
      rw [ih xs (i + 1) (by simpa using hlen)
        (fun j hj => by simpa using hbefore (j + 1) (by omega)) (by simpa using hk)]
      simp only [Option.some.injEq]
      omega

theorem findAux_no_occurrence (pat : Str) : ∀ (s : Str) (i : Nat),
    (∀ j, j ≤ s.length → pat.isPrefixOf (s.drop j) = false) → findAux pat s i = none := by
  intro s
  induction s with
  | nil =>
    intro i h
    have h0 := h 0 (Nat.le_refl _)
    have hp : pat ≠ [] := by
      intro hp
      subst hp
      simp [List.isPrefixOf] at h0
    simp [findAux, hp]
  | cons x xs ih =>
    intro i h
    have h0 := h 0 (Nat.zero_le _)
    simp only [List.drop_zero] at h0
    simp only [findAux, h0, Bool.false_eq_true, if_false]
    exact ih (i + 1) (fun j hj => by simpa using h (j + 1) (by simpa using hj))

/-- The search gives the first position at or after `pos` where the pattern stands. -/
theorem strFind_first_occurrence (s pat : Str) (pos k : Nat) (hk : pos + k ≤ s.length)
    (hbefore : ∀ j, j < k → pat.isPrefixOf (s.drop (pos + j)) = false)
    (hat : pat.isPrefixOf (s.drop (pos + k)) = true) : strFind s pat pos = pos + k := by
  unfold strFind
  rw [if_neg (by omega), findAux_first_occurrence pat k (s.drop pos) pos
    (by simp only [List.length_drop]; omega)
    (fun j hj => by rw [List.drop_drop]; exact hbefore j hj)
    (by rw [List.drop_drop]; exact hat)]
  rfl

/-- The search gives `npos` when the pattern stands nowhere at or after `pos`. -/
theorem strFind_no_occurrence (s pat : Str) (pos : Nat)
    (h : ∀ j, pos ≤ j → j ≤ s.length → pat.isPrefixOf (s.drop j) = false) :
    strFind s pat pos = npos := by
  unfold strFind
  split
  · rfl
  · rename_i hpos
    rw [findAux_no_occurrence pat (s.drop pos) pos
      (fun j hj => by
        rw [List.drop_drop]
        simp only [List.length_drop] at hj
        exact h (pos + j) (by omega) (by omega))]
    rfl

/-- Claim C20.  With a field delimiter `d` of two or more characters, a line `f0 ++ d ++ f1`
shorter than 2 ^ 31 characters in which `f0` is not empty and `d` stands only at the position
`f0.length` is converted into exactly the two fields `f0` and `d` without its first character
followed by `f1`: the second field keeps all of the delimiter but its first character. -/
theorem convertRowStringToRowFields_long_delimiter (p : CsvParser) (f0 f1 : Str)
    (hd : 2 ≤ p.m_fieldDelimiter.length) (hf0 : f0 ≠ [])
    (hocc : ∀ j, j ≤ (f0 ++ p.m_fieldDelimiter ++ f1).length →
      p.m_fieldDelimiter.isPrefixOf ((f0 ++ p.m_fieldDelimiter ++ f1).drop j) = true →
      j = f0.length)
    (hlen : (f0 ++ p.m_fieldDelimiter ++ f1).length < 2 ^ 31) :
    p.convertRowStringToRowFields (f0 ++ p.m_fieldDelimiter ++ f1) (CsvRow.ctor 0) =
      some (true, ⟨0, [f0, p.m_fieldDelimiter.drop 1 ++ f1]⟩) := by
  have hf0pos : 1 ≤ f0.length := by
    cases f0 with
    | nil => exact absurd rfl hf0
    | cons x xs => simp
  have hlen1 : f0.length + p.m_fieldDelimiter.length + f1.length < 2 ^ 31 := by
    simpa only [List.length_append] using hlen
  have hnot : ∀ j, j ≤ (f0 ++ p.m_fieldDelimiter ++ f1).length → j ≠ f0.length →
      p.m_fieldDelimiter.isPrefixOf ((f0 ++ p.m_fieldDelimiter ++ f1).drop j) = false := by
    intro j hj hne
    cases h : p.m_fieldDelimiter.isPrefixOf ((f0 ++ p.m_fieldDelimiter ++ f1).drop j) with
    | false => rfl
    | true => exact absurd (hocc j hj h) hne
  have hat : p.m_fieldDelimiter.isPrefixOf
      ((f0 ++ p.m_fieldDelimiter ++ f1).drop (0 + f0.length)) = true := by
    rw [Nat.zero_add, List.append_assoc, List.drop_left]
    exact List.isPrefixOf_iff_prefix.mpr (List.prefix_append _ _)
  have hfind1 : strFind (f0 ++ p.m_fieldDelimiter ++ f1) p.m_fieldDelimiter 0 = f0.length := by
    have h := strFind_first_occurrence (f0 ++ p.m_fieldDelimiter ++ f1) p.m_fieldDelimiter 0
      f0.length (by simp only [List.length_append]; omega)
      (fun j hj => hnot (0 + j) (by simp only [List.length_append]; omega) (by omega)) hat
    simpa using h
  have hfind2 : strFind (f0 ++ p.m_fieldDelimiter ++ f1) p.m_fieldDelimiter
      (f0.length + 1) = npos :=
    strFind_no_occurrence _ _ _ (fun j hj1 hj2 => hnot j hj2 (by omega))
  have htail : (f0 ++ p.m_fieldDelimiter ++ f1).drop (f0.length + 1) =
      p.m_fieldDelimiter.drop 1 ++ f1 := by
    rw [List.append_assoc, ← List.drop_drop, List.drop_left]
    cases hdel : p.m_fieldDelimiter with
    | nil => rw [hdel] at hd; simp at hd
    | cons x xs => simp
  unfold CsvParser.convertRowStringToRowFields
  have h1 := convertLoop_step p (f0 ++ p.m_fieldDelimiter ++ f1) hlen
    ((f0 ++ p.m_fieldDelimiter ++ f1).length + 1) 0 (Nat.zero_le _) true (CsvRow.ctor 0)
  simp only [Nat.cast_zero, if_true, hfind1] at h1
  rw [if_neg (by unfold npos; omega)] at h1
  have h2 := convertLoop_step p (f0 ++ p.m_fieldDelimiter ++ f1) hlen
    (f0 ++ p.m_fieldDelimiter ++ f1).length f0.length
    (by simp only [List.length_append]; omega) false
    ((CsvRow.ctor 0).addField ((f0 ++ p.m_fieldDelimiter ++ f1).take f0.length)).2
  simp only [Bool.false_eq_true, if_false, hfind2, if_true, htail] at h2
  rw [h1, h2, List.append_assoc, List.take_left]
  simp [CsvRow.addField, CsvRow.ctor]

/-- Claim C20 at the delimiter `::` and the line `a::b`: the fields `a` and `:b`. -/
theorem convertRowStringToRowFields_long_delimiter_witness :
    (2 ≤ (CsvParser.ctor "::".toList "\n".toList).m_fieldDelimiter.length ∧
      "a".toList ≠ [] ∧ ("a".toList ++ "::".toList ++ "b".toList).length < 2 ^ 31) ∧
    (CsvParser.ctor "::".toList "\n".toList).convertRowStringToRowFields "a::b".toList
      (CsvRow.ctor 0) = some (true, ⟨0, ["a".toList, ":b".toList]⟩) :=
  ⟨⟨by decide, by decide, by decide⟩,
    convertRowStringToRowFields_long_delimiter (CsvParser.ctor "::".toList "\n".toList)
      "a".toList "b".toList (by decide) (by decide) (by decide) (by decide)⟩

/-! ## The round trip on rows of two or more fields -/

/-- The rows converted from the joined lines of well-formed rows are those rows, built with the
default size. -/
theorem rows_read_back (p : CsvParser) (c : Char) (hfd : p.m_fieldDelimiter = [c]) :
    ∀ (rs rows : List CsvRow),
      (∀ r ∈ rs, 2 ≤ r.m_rowData.length ∧
        (3 ≤ r.m_rowData.length → r.m_rowData.head? ≠ some []) ∧
        (∀ f ∈ r.m_rowData, c ∉ f) ∧ ([c].intercalate r.m_rowData).length < 2 ^ 31) →
      List.Forall₂
        (fun l r => p.convertRowStringToRowFields l (CsvRow.ctor 0) = some (true, r))
        (rs.map (fun r => [c].intercalate r.m_rowData)) rows →
      rows = rs.map (fun r => (⟨0, r.m_rowData⟩ : CsvRow)) := by
  intro rs
  induction rs with
  | nil =>
    intro rows _ h
    simp only [List.map_nil, List.forall₂_nil_left_iff] at h
    simp [h]
  | cons r0 rs ih =>
    intro rows hrs h
    rw [List.map_cons, List.forall₂_cons_left_iff] at h
    obtain ⟨r, rows1, hconv, hall, rfl⟩ := h
    obtain ⟨h2, hhead, hfree, hlen⟩ := hrs r0 (List.mem_cons_self _ _)
    rw [convert_intercalate p c hfd r0.m_rowData h2 hhead hfree hlen] at hconv
    simp only [Option.some.injEq, Prod.mk.injEq, true_and] at hconv
    rw [List.map_cons, ← ih rows1 (fun x hx => hrs x (List.mem_cons_of_mem _ hx)) hall, ← hconv]

/-- A table of well-formed rows is written, and the written file is read back as the rows of
the table, each built with the default size. -/
theorem write_then_read (p : CsvParser) (c d : Char) (dev : Nat → Bool) (fs : FileSystem)
    (fileName : Str) (t : CsvTable)
    (hfd : p.m_fieldDelimiter = [c]) (hrd : p.m_rowDelimiter = [d]) (hcd : c ≠ d)
    (hdev : ∀ k, dev k = false)
    (hrows : ∀ r ∈ t.m_rows, 2 ≤ r.m_rowData.length ∧
      (3 ≤ r.m_rowData.length → r.m_rowData.head? ≠ some []) ∧
      ∀ f ∈ r.m_rowData, c ∉ f ∧ d ∉ f)
    (hlen : (csvText [c] [d] t.fields).length < 2 ^ 31) :
    ∃ fs1, p.createCsvFile dev fs fileName t = some (true, fs1) ∧
      p.readCsvFile fs1 fileName (CsvTable.ctor 0) =
        some (false, ⟨0, t.m_rows.map (fun r => (⟨0, r.m_rowData⟩ : CsvRow))⟩) := by
  have hfit := fitsSizeT_of_short_text c d t hlen
  have hwrite := createCsvFile_ok p dev fs fileName t hdev hfit
  rw [hfd, hrd] at hwrite
  have hlines : ∀ l ∈ t.m_rows.map (fun r => [c].intercalate r.m_rowData),
      l ≠ [] ∧ d ∉ l := by
    intro l hl
    obtain ⟨r, hr, rfl⟩ := List.mem_map.mp hl
    obtain ⟨h2, _, hfree⟩ := hrows r hr
    constructor
    · intro hnil
      have := length_le_intercalate_single c r.m_rowData
      rw [hnil] at this
      simp only [List.length_nil] at this
      omega
    · intro hmem
      rcases mem_intercalate_single c d _ hmem with h | ⟨f, hf, hdf⟩
      · exact hcd h.symm
      · exact (hfree f hf).2 hdf
  have htext : csvText [c] [d] t.fields =
      fileOfLines [d] (t.m_rows.map (fun r => [c].intercalate r.m_rowData)) := by
    simp [csvText, CsvTable.fields, List.map_map, Function.comp_def]
  rw [htext] at hlen hwrite
  obtain ⟨rows, hread, hall⟩ := readLoop_fileOfLines p d hrd _
    ((fileOfLines [d] (t.m_rows.map (fun r => [c].intercalate r.m_rowData))).length + 1)
    (CsvTable.ctor 0) hlines hlen
    (by have := length_le_fileOfLines d
          (t.m_rows.map (fun r => [c].intercalate r.m_rowData)); omega)
  have hexact : rows = t.m_rows.map (fun r => (⟨0, r.m_rowData⟩ : CsvRow)) := by
    apply rows_read_back p c hfd t.m_rows rows _ hall
    intro r hr
    obtain ⟨h2, hhead, hfree⟩ := hrows r hr
    refine ⟨h2, hhead, fun f hf => (hfree f hf).1, ?_⟩
    have := length_le_fileOfLines_of_mem [d]
      (t.m_rows.map (fun r => [c].intercalate r.m_rowData)) ([c].intercalate r.m_rowData)
      (List.mem_map.mpr ⟨r, hr, rfl⟩)
    omega
  refine ⟨_, hwrite, ?_⟩
  unfold CsvParser.readCsvFile
  simp only [FileSystem.write, if_true]
  rw [hread, hexact]
  simp [CsvTable.ctor]

/-- Claim C18.  With distinct single-character delimiters `c` (fields) and `d` (rows), a table
in which every row has at least two fields, the first field of every row is not empty and no
field holds `c` or `d`, and whose text is shorter than 2 ^ 31 characters, is written by
`createCsvFile` and read back by `readCsvFile` into an empty table as the same rows with the
same fields in the same order, whatever `bool` `readCsvFile` returns; the table read back is
the original itself when the original was built with the default sizes. -/
theorem createCsvFile_readCsvFile_restricted_round_trip (p : CsvParser) (c d : Char)
    (dev : Nat → Bool) (fs : FileSystem) (fileName : Str) (t : CsvTable)
    (hfd : p.m_fieldDelimiter = [c]) (hrd : p.m_rowDelimiter = [d]) (hcd : c ≠ d)
    (hdev : ∀ k, dev k = false)
    (hrows : ∀ r ∈ t.m_rows, 2 ≤ r.m_rowData.length ∧ r.m_rowData.head? ≠ some [] ∧
      ∀ f ∈ r.m_rowData, c ∉ f ∧ d ∉ f)
    (hlen : (csvText [c] [d] t.fields).length < 2 ^ 31) :
    ∃ fs1 b t1, p.createCsvFile dev fs fileName t = some (true, fs1) ∧
      p.readCsvFile fs1 fileName (CsvTable.ctor 0) = some (b, t1) ∧
      t1.getRowNumbers = t.getRowNumbers ∧
      t1.fields = t.fields ∧
      (t.m_numOfRows = 0 → (∀ r ∈ t.m_rows, r.m_rowSize = 0) → t1 = t) := by
  obtain ⟨fs1, hwrite, hread⟩ := write_then_read p c d dev fs fileName t hfd hrd hcd hdev
    (fun r hr => ⟨(hrows r hr).1, fun _ => (hrows r hr).2.1, (hrows r hr).2.2⟩) hlen
  refine ⟨fs1, false, _, hwrite, hread, ?_, ?_, ?_⟩
  · simp [CsvTable.getRowNumbers]
  · simp [CsvTable.fields, List.map_map, Function.comp_def]
  · intro h0 hsizes
    have hmap : t.m_rows.map (fun r => (⟨0, r.m_rowData⟩ : CsvRow)) = t.m_rows := by
      conv => rhs; rw [← List.map_id t.m_rows]
      apply List.map_congr_left
      intro r hr
      have := hsizes r hr
      cases r
      simp_all
    rw [hmap]
    cases t
    simp_all

/-- Claim C18 at the table with the rows `a`, empty field and `c`, `d`, `e`. -/
theorem createCsvFile_readCsvFile_restricted_round_trip_witness :
    ∃ fs1 b t1,
      defaultParser.createCsvFile noFault emptyFs "t.csv".toList
        ⟨0, [⟨0, ["a".toList, "".toList]⟩, ⟨0, ["c".toList, "d".toList, "e".toList]⟩]⟩ =
        some (true, fs1) ∧
      defaultParser.readCsvFile fs1 "t.csv".toList (CsvTable.ctor 0) = some (b, t1) ∧
      t1.getRowNumbers = CsvTable.getRowNumbers
        ⟨0, [⟨0, ["a".toList, "".toList]⟩, ⟨0, ["c".toList, "d".toList, "e".toList]⟩]⟩ ∧
      t1.fields = CsvTable.fields
        ⟨0, [⟨0, ["a".toList, "".toList]⟩, ⟨0, ["c".toList, "d".toList, "e".toList]⟩]⟩ ∧
      (CsvTable.m_numOfRows
          ⟨0, [⟨0, ["a".toList, "".toList]⟩, ⟨0, ["c".toList, "d".toList, "e".toList]⟩]⟩ = 0 →
        (∀ r ∈ CsvTable.m_rows
          ⟨0, [⟨0, ["a".toList, "".toList]⟩, ⟨0, ["c".toList, "d".toList, "e".toList]⟩]⟩,
          r.m_rowSize = 0) →
        t1 = ⟨0, [⟨0, ["a".toList, "".toList]⟩,
          ⟨0, ["c".toList, "d".toList, "e".toList]⟩]⟩) :=
  createCsvFile_readCsvFile_restricted_round_trip defaultParser ';' '\n' noFault emptyFs
    "t.csv".toList
    ⟨0, [⟨0, ["a".toList, "".toList]⟩, ⟨0, ["c".toList, "d".toList, "e".toList]⟩]⟩
    rfl rfl (by decide) (fun _ => rfl) (by decide) (by decide)

/-! ## Rows behind a row delimiter of any length -/

theorem isPrefixOf_append_of_length_le : ∀ (pat xs ys : Str), pat.length ≤ xs.length →
    pat.isPrefixOf (xs ++ ys) = pat.isPrefixOf xs := by
  intro pat
  induction pat with
  | nil => intro xs ys _; simp [List.isPrefixOf]
  | cons a as ih =>
    intro xs ys h
    cases xs with
    | nil => simp at h
    | cons x xs =>
      rw [List.cons_append]
      simp only [List.isPrefixOf]
      rw [ih xs ys (by simpa using h)]

/-- A non-empty line followed by the row delimiter becomes one more row, when the delimiter
stands nowhere in the line and its delimiter before the end of the line. -/
theorem readLoop_line_any (p : CsvParser) (fuel : Nat) (l rest : Str) (hl : l ≠ [])
    (hocc : ∀ j, j < l.length → p.m_rowDelimiter.isPrefixOf ((l ++ p.m_rowDelimiter).drop j) = false)
    (hlen : l.length < 2 ^ 31) (t : CsvTable) (r : CsvRow)
    (hconv : p.convertRowStringToRowFields l (CsvRow.ctor 0) = some (true, r)) :
    readLoop p (fuel + 1) (l ++ p.m_rowDelimiter ++ rest) t =
      readLoop p fuel rest (t.addRow r).2 := by
  have hfind : strFind (l ++ p.m_rowDelimiter ++ rest) p.m_rowDelimiter 0 = l.length := by
    have h := strFind_first_occurrence (l ++ p.m_rowDelimiter ++ rest) p.m_rowDelimiter 0
      l.length (by simp only [List.length_append]; omega)
      (fun j hj => by
        rw [Nat.zero_add, List.drop_append_of_le_length
          (by simp only [List.length_append]; omega),
          isPrefixOf_append_of_length_le _ _ _
            (by simp only [List.length_drop, List.length_append]; omega)]
        exact hocc j hj)
      (by
        rw [Nat.zero_add, List.append_assoc, List.drop_left]
        exact List.isPrefixOf_iff_prefix.mpr (List.prefix_append _ _))
    simpa using h
  rw [readLoop_found p fuel _ t (by rw [hfind]; unfold npos; omega), hfind]
  have htake : List.take l.length (l ++ p.m_rowDelimiter ++ rest) = l := by
    rw [List.append_assoc, List.take_left]
  have hdrop : List.drop (l.length + p.m_rowDelimiter.length)
      (l ++ p.m_rowDelimiter ++ rest) = rest := by
    have h1 := List.drop_left (l ++ p.m_rowDelimiter) rest
    rw [List.length_append] at h1
    exact h1
  rw [htake, hdrop, hconv]
  cases l with
  | nil => exact absurd rfl hl
  | cons x xs => simp

theorem length_le_fileOfLines_any (rd : Str) : ∀ lines : List Str,
    (∀ l ∈ lines, l ≠ []) → lines.length ≤ (fileOfLines rd lines).length := by
  intro lines
  induction lines with
  | nil => intro _; simp
  | cons l ls ih =>
    intro h
    have hl : 0 < l.length := List.length_pos.mpr (h l (List.mem_cons_self _ _))
    have := ih (fun x hx => h x (List.mem_cons_of_mem _ hx))
    simp only [fileOfLines, List.length_cons, List.length_append]
    omega

/-- The row loop on terminated non-empty lines appends one row per line, whatever the length of
the row delimiter. -/
theorem readLoop_fileOfLines_any (p : CsvParser) :
    ∀ (lines : List Str) (fuel : Nat) (t : CsvTable),
      (∀ l ∈ lines, l ≠ [] ∧
        ∀ j, j < l.length → p.m_rowDelimiter.isPrefixOf ((l ++ p.m_rowDelimiter).drop j) = false) →
      (fileOfLines p.m_rowDelimiter lines).length < 2 ^ 31 → lines.length + 1 ≤ fuel →
      ∃ rows, readLoop p fuel (fileOfLines p.m_rowDelimiter lines) t =
          some (false, ⟨t.m_numOfRows, t.m_rows ++ rows⟩) ∧
        List.Forall₂ (fun l r => p.convertRowStringToRowFields l (CsvRow.ctor 0) = some (true, r))
          lines rows := by
  intro lines
  induction lines with
  | nil =>
    intro fuel t _ _ hf
    obtain ⟨k, rfl⟩ : ∃ k, fuel = k + 1 := ⟨fuel - 1, by simp at hf; omega⟩
    refine ⟨[], ?_, List.Forall₂.nil⟩
    simp [fileOfLines, readLoop_nil]
  | cons l ls ih =>
    intro fuel t hlines hlen hf
    obtain ⟨k, rfl⟩ : ∃ k, fuel = k + 1 := ⟨fuel - 1, by simp at hf; omega⟩
    have hl := hlines l (List.mem_cons_self _ _)
    simp only [fileOfLines] at hlen ⊢
    simp only [List.length_append] at hlen
    obtain ⟨r, hr⟩ := convert_terminates p l (by omega) (CsvRow.ctor 0)
    rw [readLoop_line_any p k l _ hl.1 hl.2 (by omega) t r hr]
    obtain ⟨rows, hrows, hall⟩ := ih k (t.addRow r).2
      (fun x hx => hlines x (List.mem_cons_of_mem _ hx)) (by omega)
      (by simp only [List.length_cons] at hf; omega)
    refine ⟨r :: rows, ?_, List.Forall₂.cons hr hall⟩
    rw [hrows]
    simp [CsvTable.addRow]

theorem forall₂_at {α β : Type} (R : α → β → Prop) : ∀ (xs : List α) (ys : List β),
    List.Forall₂ R xs ys → ∀ (i : Nat) (x : α) (y : β), xs[i]? = some x → ys[i]? = some y →
    R x y := by
  intro xs ys h
  induction h with
  | nil => intro i x y hx _; simp at hx
  | cons hr _ ih =>
    intro i x y hx hy
    cases i with
    | zero =>
      simp only [List.getElem?_cons_zero, Option.some.injEq] at hx hy
      subst hx
      subst hy
      exact hr
    | succ i =>
      simp only [List.getElem?_cons_succ] at hx hy
      exact ih i x y hx hy

/-- Claim C1, amended.  For every table and every pair of delimiters such that no row is
written as an empty line, the row delimiter stands nowhere in the line of a row and the
delimiter written behind it before the end of that line, and the written text is shorter than
2 ^ 31 characters: `createCsvFile` on a device without faults followed by `readCsvFile` into
an empty table gives a table with the same number of rows; and with a single-character field
delimiter, every row of at least two fields, none of which holds the field delimiter and the
first of which is not empty when there are three or more, is read back at its index with
exactly the same field values in the same order.  Nothing is said about the field values read
back for the other rows. -/
theorem createCsvFile_readCsvFile_round_trip (p : CsvParser) (dev : Nat → Bool)
    (fs : FileSystem) (fileName : Str) (t : CsvTable)
    (hdev : ∀ k, dev k = false) (hfit : t.fitsSizeT)
    (hline : ∀ r ∈ t.m_rows, p.m_fieldDelimiter.intercalate r.m_rowData ≠ [])
    (hrd : ∀ r ∈ t.m_rows, ∀ j, j < (p.m_fieldDelimiter.intercalate r.m_rowData).length →
      p.m_rowDelimiter.isPrefixOf
        ((p.m_fieldDelimiter.intercalate r.m_rowData ++ p.m_rowDelimiter).drop j) = false)
    (hlen : (csvText p.m_fieldDelimiter p.m_rowDelimiter t.fields).length < 2 ^ 31) :
    ∃ fs1 b t1, p.createCsvFile dev fs fileName t = some (true, fs1) ∧
      p.readCsvFile fs1 fileName (CsvTable.ctor 0) = some (b, t1) ∧
      t1.getRowNumbers = t.getRowNumbers ∧
      ∀ (c : Char) (i : Nat) (r r1 : CsvRow), p.m_fieldDelimiter = [c] →
        t.m_rows[i]? = some r → t1.m_rows[i]? = some r1 →
        2 ≤ r.m_rowData.length → (3 ≤ r.m_rowData.length → r.m_rowData.head? ≠ some []) →
        (∀ f ∈ r.m_rowData, c ∉ f) → r1.m_rowData = r.m_rowData := by
  have hwrite := createCsvFile_ok p dev fs fileName t hdev hfit
  have htext : csvText p.m_fieldDelimiter p.m_rowDelimiter t.fields =
      fileOfLines p.m_rowDelimiter
        (t.m_rows.map (fun r => p.m_fieldDelimiter.intercalate r.m_rowData)) := by
    simp [csvText, CsvTable.fields, List.map_map, Function.comp_def]
  rw [htext] at hlen hwrite
  have hlines : ∀ l ∈ t.m_rows.map (fun r => p.m_fieldDelimiter.intercalate r.m_rowData),
      l ≠ [] ∧ ∀ j, j < l.length →
        p.m_rowDelimiter.isPrefixOf ((l ++ p.m_rowDelimiter).drop j) = false := by
    intro l hl
    obtain ⟨r, hr, rfl⟩ := List.mem_map.mp hl
    exact ⟨hline r hr, hrd r hr⟩
  have hcount := length_le_fileOfLines_any p.m_rowDelimiter
    (t.m_rows.map (fun r => p.m_fieldDelimiter.intercalate r.m_rowData))
    (fun l hl => (hlines l hl).1)
  obtain ⟨rows, hread, hall⟩ := readLoop_fileOfLines_any p _
    ((fileOfLines p.m_rowDelimiter
      (t.m_rows.map (fun r => p.m_fieldDelimiter.intercalate r.m_rowData))).length + 1)
    (CsvTable.ctor 0) hlines hlen (by omega)
  refine ⟨_, false, ⟨(CsvTable.ctor 0).m_numOfRows, (CsvTable.ctor 0).m_rows ++ rows⟩,
    hwrite, ?_, ?_, ?_⟩
  · unfold CsvParser.readCsvFile
    simp only [FileSystem.write, if_true]
    exact hread
  · have := hall.length_eq
    simp only [List.length_map] at this
    simp [CsvTable.getRowNumbers, CsvTable.ctor, this]
  · intro c i r r1 hfd hr hr1 h2 hhead hfree
    have hr1a : rows[i]? = some r1 := by
      simpa [CsvTable.ctor] using hr1
    have hli : (t.m_rows.map (fun r => p.m_fieldDelimiter.intercalate r.m_rowData))[i]? =
        some (p.m_fieldDelimiter.intercalate r.m_rowData) := by
      rw [List.getElem?_map, hr]
      rfl
    have hconv := forall₂_at _ _ _ hall i _ _ hli hr1a
    have hmem : r ∈ t.m_rows := List.getElem?_mem hr
    have hbound := length_le_fileOfLines_of_mem p.m_rowDelimiter
      (t.m_rows.map (fun r => p.m_fieldDelimiter.intercalate r.m_rowData))
      (p.m_fieldDelimiter.intercalate r.m_rowData) (List.mem_map.mpr ⟨r, hmem, rfl⟩)
    rw [hfd] at hconv hbound hlen
    rw [convert_intercalate p c hfd r.m_rowData h2 hhead hfree (by omega)] at hconv
    simp only [Option.some.injEq, Prod.mk.injEq, true_and] at hconv
    rw [← hconv]

/-- Claim C1, amended, at the row delimiter CR LF and the table with the rows `a`, `b`; `x`;
empty field, `d`: three rows are read back, the first and the third with their fields. -/
theorem createCsvFile_readCsvFile_round_trip_witness :
    ∃ fs1 b t1,
      (CsvParser.ctor [';'] ['\r', '\n']).createCsvFile noFault emptyFs "t.csv".toList
        ⟨0, [⟨0, ["a".toList, "b".toList]⟩, ⟨0, ["x".toList]⟩,
          ⟨0, ["".toList, "d".toList]⟩]⟩ = some (true, fs1) ∧
      (CsvParser.ctor [';'] ['\r', '\n']).readCsvFile fs1 "t.csv".toList (CsvTable.ctor 0) =
        some (b, t1) ∧
      t1.getRowNumbers = CsvTable.getRowNumbers
        ⟨0, [⟨0, ["a".toList, "b".toList]⟩, ⟨0, ["x".toList]⟩,
          ⟨0, ["".toList, "d".toList]⟩]⟩ ∧
      ∀ (c : Char) (i : Nat) (r r1 : CsvRow),
        (CsvParser.ctor [';'] ['\r', '\n']).m_fieldDelimiter = [c] →
        (CsvTable.m_rows ⟨0, [⟨0, ["a".toList, "b".toList]⟩, ⟨0, ["x".toList]⟩,
          ⟨0, ["".toList, "d".toList]⟩]⟩)[i]? = some r →
        t1.m_rows[i]? = some r1 →
        2 ≤ r.m_rowData.length → (3 ≤ r.m_rowData.length → r.m_rowData.head? ≠ some []) →
        (∀ f ∈ r.m_rowData, c ∉ f) → r1.m_rowData = r.m_rowData :=
  createCsvFile_readCsvFile_round_trip (CsvParser.ctor [';'] ['\r', '\n']) noFault emptyFs
    "t.csv".toList
    ⟨0, [⟨0, ["a".toList, "b".toList]⟩, ⟨0, ["x".toList]⟩, ⟨0, ["".toList, "d".toList]⟩]⟩
    (fun _ => rfl) ⟨by decide, by decide⟩ (by decide) (by decide) (by decide)

/-- Claim C5.  What the code does at the example of the claim: the content `a,b` followed by
a newline is read with the default parser as exactly one row, as the claim says, but the row
holds the single field `,b`, where the field split of the line `a,b` at `;` is the single
field `a,b`: the line has lost its first character. -/
theorem readCsvFile_trailing_delimiter_example :
    defaultParser.readCsvFile (emptyFs.write "t.csv".toList "a,b\n".toList) "t.csv".toList
        (CsvTable.ctor 0) = some (false, ⟨0, [⟨0, [",b".toList]⟩]⟩) ∧
    "a,b".toList.splitOn ';' = ["a,b".toList] := by
  decide

end Csv
